import Mathlib

/-!
Shallow embedding of the text-buffer editing engine of `healeycodes/noter`
(`editor.go`, package `noter`), together with theorems checking the
natural-language specification against it.

Modelling conventions:
* The doubly-linked list of `editorLine` nodes is modelled as
  `List Line` (`Line := List Char`); a node is identified with its
  position from `e.start`, which is stable for every operation below
  (nodes are never re-ordered: swaps exchange `values`, splits insert the
  new node right after the cursor node, merges splice one node out).
* `editorCursor` is the pair of the cursor line's index `cl` and the
  offset `cx`.
* Go `map[*editorLine]map[int]bool` highlight maps become duplicate-free
  lists of `(line index, offset)` pairs; every consumer in the source is
  insensitive to map iteration order (counting, per-line maximum, sorted
  traversal), so a set representation is faithful.
* Go slice indexing panics out of range; where the source indexes a slice
  (`values[i]`) the model uses `getD` with a default, which agrees with
  the source whenever the index is in range (all states exercised by the
  claims).  The explicit failure `log.Fatalf` in `MoveCursor` is modelled
  by `Option`.
* `unicode.ToLower` is modelled by `Char.toLower`.
-/

namespace Noter

/-- Go `editorLine.values`: the runes of one line. -/
abbrev Line := List Char

/-- Go constant `EDIT_MODE` (editor.go line 111). -/
def EDIT_MODE : Nat := 0

/-- Go constant `SEARCH_MODE` (editor.go line 112). -/
def SEARCH_MODE : Nat := 1

/-- Reified undo-stack entries.  The Go source stores closures
(`func() bool`); each closure shape built by the `fn*` functions is
represented by one constructor carrying exactly the data the closure
captures.  The nested `Option (Nat × Nat × List Char)` is the data
captured by a preceding `fnDeleteHighlighted` inverse (its
`lineNum`, `curX` and the highlighted runes); `none` is the
`func() bool { return false }` default. -/
inductive UndoEntry where
  | noop : UndoEntry
  | delHighlighted (lineNum cx : Nat) (runes : List Char) : UndoEntry
  | insSingle (lineNum cx : Nat) (nested : Option (Nat × Nat × List Char)) : UndoEntry
  | insMulti (lineNum cx count : Nat) (nested : Option (Nat × Nat × List Char)) : UndoEntry
  | delNewline (lineNum cx : Nat) : UndoEntry
  | delChar (lineNum cx : Nat) (r : Char) : UndoEntry
  | swapWithNext (lineNum cx : Nat) : UndoEntry
  | swapWithPrev (lineNum cx : Nat) : UndoEntry
  deriving DecidableEq, Repr

/-- The editor state (Go struct `Editor`, internal-state fields only;
the rendering/geometry fields are out of scope).  `content` and
`clipboard` model the two `Content` providers as in-memory byte
stores (`dummyContent`). -/
structure Editor where
  lines : List Line
  cl : Nat
  cx : Nat
  modified : Bool
  mode : Nat
  searchTerm : List Char
  searchIndex : Int
  highlighted : List (Nat × Nat)
  searchHighlights : List (Nat × Nat)
  undoStack : List UndoEntry
  content : List Char
  clipboard : List Char
  deriving DecidableEq, Repr

/-- Go `editorCursor.FixPosition`: clamp the offset to the last rune of
the cursor line. -/
def fixPosition (e : Editor) : Editor :=
  { e with cx := min e.cx ((e.lines.getD e.cl []).length - 1) }

/-- Go `Editor.setModified`. -/
def setModified (e : Editor) : Editor := { e with modified := true }

/-- Go `Editor.resetHighlight`. -/
def resetHighlight (e : Editor) : Editor := { e with highlighted := [] }

/-- Go `Editor.searchMode`. -/
def searchMode (e : Editor) : Editor :=
  { resetHighlight e with mode := SEARCH_MODE, searchHighlights := [] }

/-- Go `Editor.editMode`. -/
def editMode (e : Editor) : Editor :=
  { e with mode := EDIT_MODE, searchTerm := [], searchHighlights := [] }

/-- Go `Editor.getAllRunes`: concatenate the values of every line. -/
def getAllRunes (e : Editor) : List Char := e.lines.flatten

/-- Go `Editor.ReadText` (the `[]byte`/`string` round trip is identity on
the rune sequence). -/
def readText (e : Editor) : List Char := getAllRunes e

/-- Helper for `writeText`: the parse loop of Go `Editor.WriteText`
(editor.go lines 506-515).  Splits the source after every newline; the
accumulator is the line being built. -/
def splitAfterNewlines : List Char → List Char → List Line
  | [], acc => [acc]
  | c :: rest, acc =>
    if c = '\n' then (acc ++ [c]) :: splitAfterNewlines rest []
    else splitAfterNewlines rest (acc ++ [c])

/-- Go `Editor.WriteText` lines 503-525 applied to the line list: parse,
then append a final newline to a non-empty final line missing one, then
unlink the last line whenever it has a predecessor (the `// Remove
dangling line` step, which is unconditional in the source). -/
def writeTextLines (source : List Char) : List Line :=
  if source = [] then [['\n']]
  else
    let ls := splitAfterNewlines source []
    let lastLine := ls.getLast?.getD []
    let ls :=
      if lastLine ≠ [] ∧ lastLine.getLast? ≠ some '\n' then
        ls.dropLast ++ [lastLine ++ ['\n']]
      else ls
    if 1 < ls.length then ls.dropLast else ls

/-- Go `Editor.WriteText`: replaces the whole document and resets the
editing state (it does not touch `modified` or `searchIndex`). -/
def writeText (e : Editor) (text : List Char) : Editor :=
  let e := editMode e
  { e with
    undoStack := [],
    searchTerm := [],
    highlighted := [],
    lines := writeTextLines text,
    cl := 0, cx := 0 }

/-- Go `Editor.Save`: write the document to the content provider and
clear the modified flag. -/
def save (e : Editor) : Editor :=
  { e with content := readText e, modified := false }

/-- Go `Editor.Load`: replace the document with the content provider's
text. -/
def load (e : Editor) : Editor := writeText e e.content

/-- The editor produced by `NewEditor` with a `dummyContent` holding
`text`, after its `Load` call.  All zero-valued internal state fields
mirror Go zero values. -/
def newEditor (text : List Char) : Editor :=
  load
    { lines := [], cl := 0, cx := 0, modified := false, mode := EDIT_MODE,
      searchTerm := [], searchIndex := 0, highlighted := [],
      searchHighlights := [], undoStack := [], content := text,
      clipboard := [] }

/-- Go `Editor.deletePrevious` (editor.go lines 1168-1191). -/
def deletePrevious (e : Editor) : Editor :=
  let cur := e.lines.getD e.cl []
  if e.cl = 0 ∧ cur.length = 1 then
    -- "Instead of allowing an empty document, 'clear it' by writing a
    -- new line character" followed by FixPosition.
    fixPosition { e with lines := e.lines.set 0 ['\n'] }
  else if e.cx = 0 then
    if 0 < e.cl then
      let prev := e.lines.getD (e.cl - 1) []
      { e with
        cx := prev.length - 1,
        lines := (e.lines.set (e.cl - 1) (prev.dropLast ++ cur)).eraseIdx e.cl,
        cl := e.cl - 1 }
    else e
  else
    { e with
      cx := e.cx - 1,
      lines := e.lines.set e.cl (cur.eraseIdx (e.cx - 1)) }

/-- Iterated `deletePrevious` (the `for i := 0; i < n; i++` loops of
`fnDeleteHighlighted` and the multi-insert inverse). -/
def deleteN : Nat → Editor → Editor
  | 0, e => e
  | n + 1, e => deleteN n (deletePrevious e)

/-- One character of the scan state of Go `Editor.search`
(editor.go lines 537-594): the rolling candidate index into the term,
the candidate's cells (`possibleMatches`), the anchors found so far
(`possibleLines`/`possibleXs`) and the committed match highlights. -/
structure ScanState where
  idx : Nat
  pm : List (Nat × Nat)
  anchors : List (Nat × Nat)
  hl : List (Nat × Nat)
  deriving DecidableEq, Repr

/-- One iteration of the character loop of Go `Editor.search` on the
document position `(li, i)` holding rune `r`. -/
def scanStep (term : List Char) (s : ScanState) (p : Nat × Nat × Char) : ScanState :=
  let li := p.1
  let i := p.2.1
  let r := p.2.2
  let s :=
    if (term.getD s.idx ' ').toLower = r.toLower then
      { s with
        anchors := if s.idx = 0 then s.anchors ++ [(li, i)] else s.anchors,
        idx := s.idx + 1,
        pm := s.pm ++ [(li, i)] }
    else
      { s with
        anchors := if 0 < s.idx then s.anchors.dropLast else s.anchors,
        idx := 0,
        pm := [] }
  if s.idx = term.length then
    { s with hl := s.hl ++ s.pm, idx := 0, pm := [] }
  else s

/-- Every document position of the lines numbered from `li` onwards, in
scan order. -/
def docCharsFrom : Nat → List Line → List (Nat × Nat × Char)
  | _, [] => []
  | li, l :: t => l.enum.map (fun q => (li, q.1, q.2)) ++ docCharsFrom (li + 1) t

/-- Every document position in scan order: the nested
`for curLine != nil { for index, r := range curLine.values }` loops. -/
def docChars (lines : List Line) : List (Nat × Nat × Char) :=
  docCharsFrom 0 lines

/-- The complete scan of Go `Editor.search` over a document. -/
def runScan (lines : List Line) (term : List Char) : ScanState :=
  (docChars lines).foldl (scanStep term) ⟨0, [], [], []⟩

/-- The ordered match anchors (`possibleLines` zipped with `possibleXs`)
left by the scan. -/
def searchAnchors (lines : List Line) (term : List Char) : List (Nat × Nat) :=
  (runScan lines term).anchors

/-- Go `Editor.search` (editor.go lines 528-620): reset the search
highlights, return early on an empty term, otherwise scan and then move
the cursor according to `searchIndex`. -/
def search (e : Editor) : Editor :=
  let e := { e with searchHighlights := [] }
  if e.searchTerm = [] then e
  else
    let s := runScan e.lines e.searchTerm
    let e := { e with searchHighlights := s.hl }
    if s.anchors ≠ [] then
      if e.searchIndex = -1 then
        let a := s.anchors.getLast?.getD (0, 0)
        { e with cl := a.1, cx := a.2, searchIndex := (s.anchors.length : Int) - 1 }
      else if (s.anchors.length : Int) - 1 < e.searchIndex then
        let a := s.anchors.getD 0 (0, 0)
        { e with searchIndex := 0, cl := a.1, cx := a.2 }
      else
        let a := s.anchors.getD e.searchIndex.toNat (0, 0)
        { e with cl := a.1, cx := a.2 }
    else
      { e with searchIndex := 0 }

/-- Go `Editor.handleRune` (editor.go lines 662-707). -/
def handleRune (e : Editor) (r : Char) : Editor :=
  if e.mode = SEARCH_MODE then
    search { e with searchTerm := e.searchTerm ++ [r] }
  else
    let e := if e.highlighted ≠ [] then resetHighlight e else e
    if r = '\n' then
      let cur := e.lines.getD e.cl []
      let shiftedValues := cur.drop e.cx
      let leftBehindValues := cur.take e.cx ++ ['\n']
      setModified
        { e with
          lines := (e.lines.set e.cl leftBehindValues).insertIdx (e.cl + 1) shiftedValues,
          cl := e.cl + 1, cx := 0 }
    else
      let cur := e.lines.getD e.cl []
      setModified
        { e with
          lines := e.lines.set e.cl (cur.take e.cx ++ r :: cur.drop e.cx),
          cx := e.cx + 1 }

/-- Go walk of `Editor.MoveCursor` (editor.go lines 1256-1269) over a
document of `n` lines: from line index `i`, returns the final line index,
or `none` for the `log.Fatalf` path (a non-negative `row` beyond the last
line).  The fuel argument only bounds the structural recursion; with
fuel `n` it is never exhausted, because each step moves to a line that
has a successor. -/
def moveWalkAux (n : Nat) (row : Int) : Nat → Nat → Option Nat
  | fuel, i =>
    if (i : Int) = row then some i
    else if i + 1 < n then
      match fuel with
      | 0 => none
      | f + 1 => moveWalkAux n row f (i + 1)
    else if row < 0 then some i
    else none

/-- The cursor walk from the head line. -/
def moveWalk (n : Nat) (row : Int) : Option Nat := moveWalkAux n row n 0

/-- Go `Editor.MoveCursor`: `none` models `log.Fatalf`.  (`col` below
`-1` never occurs in the source; the model maps it to offset 0.) -/
def moveCursor (e : Editor) (row col : Int) : Option Editor :=
  (moveWalk e.lines.length row).map (fun cl =>
    let cx := if col = -1 then (e.lines.getD cl []).length - 1 else col.toNat
    { e with cl := cl, cx := cx })

/-- Go `Editor.getLineNumber`: the cursor line's 0-based index. -/
def getLineNumber (e : Editor) : Nat := e.cl

/-- Go `Editor.highlight` on the raw highlight set: mark `(li, x)`
(idempotent, like the map write). -/
def hlInsert (hl : List (Nat × Nat)) (li x : Nat) : List (Nat × Nat) :=
  if (li, x) ∈ hl then hl else hl ++ [(li, x)]

/-- Mark a batch of offsets of one line (the highlight loops; the Go
iteration order, ascending or descending, is irrelevant to the set). -/
def hlInsertMany (hl : List (Nat × Nat)) (li : Nat) (xs : List Nat) : List (Nat × Nat) :=
  xs.foldl (fun h x => hlInsert h li x) hl

/-- Go `Editor.highlight` applied to the editor. -/
def highlight (e : Editor) (li x : Nat) : Editor :=
  { e with highlighted := hlInsert e.highlighted li x }

/-- Go `Editor.highlightLine`: mark every offset of the cursor line. -/
def highlightLine (e : Editor) : Editor :=
  { e with
    highlighted :=
      hlInsertMany e.highlighted e.cl (List.range (e.lines.getD e.cl []).length) }

/-- Go `Editor.highlightLineToRight`: mark the offsets from the cursor
to the end of its line. -/
def highlightLineToRight (e : Editor) : Editor :=
  { e with
    highlighted :=
      hlInsertMany e.highlighted e.cl
        (List.range' e.cx ((e.lines.getD e.cl []).length - e.cx)) }

/-- Go `Editor.highlightLineToLeft`: mark the offsets before the cursor
on its line. -/
def highlightLineToLeft (e : Editor) : Editor :=
  { e with highlighted := hlInsertMany e.highlighted e.cl (List.range e.cx) }

/-- The highlighted offsets of line `li` in ascending order
(Go `getHighlightedRunes` collects the inner map's keys and sorts them;
offsets beyond the line, which would make the source panic on
`curLine.values[i]`, do not occur in any state exercised here). -/
def hlIndices (e : Editor) (li : Nat) : List Nat :=
  (List.range (e.lines.getD li []).length).filter (fun x => (li, x) ∈ e.highlighted)

/-- Go `Editor.getHighlightedRunes` (editor.go lines 1193-1210). -/
def getHighlightedRunes (e : Editor) : List Char :=
  (List.range e.lines.length).foldl
    (fun acc li => acc ++ (hlIndices e li).map (fun x => (e.lines.getD li []).getD x ' '))
    []

/-- Go `Editor.fnSelectAll` (editor.go lines 1130-1139). -/
def fnSelectAllAux : Nat → Editor → Editor
  | 0, e => e
  | fuel + 1, e =>
    if e.cl + 1 < e.lines.length then
      let e := { e with cl := e.cl + 1 }
      let e := { e with cx := (e.lines.getD e.cl []).length - 1 }
      fnSelectAllAux fuel (highlightLine e)
    else e

/-- Go `Editor.fnSelectAll`: move to the head line, highlight it, then
walk every successor highlighting whole lines. -/
def fnSelectAll (e : Editor) : Editor :=
  let e := { e with cl := 0 }
  fnSelectAllAux e.lines.length (highlightLine e)

/-- Go `Editor.fnDeleteHighlighted` (editor.go lines 411-456), returning
the mutated editor and the inverse action's captured data. -/
def fnDeleteHighlighted (e : Editor) : Editor × UndoEntry :=
  let n := e.lines.length
  let hlLines := (List.range n).filter (fun li => e.highlighted.any (fun p => p.1 = li))
  let lastHighlightedLine := hlLines.getLast?.getD 0
  let lastHighlightedX :=
    (e.highlighted.filter (fun p => p.1 = lastHighlightedLine)).foldl
      (fun m p => max m p.2) 0
  let highlightCount := (e.highlighted.filter (fun p => p.1 < n)).length
  let e := { e with cl := lastHighlightedLine, cx := lastHighlightedX + 1 }
  -- "When a single new line character is highlighted we need to start
  -- deleting from the start of the next line".
  let adjust : Editor → Editor := fun e =>
    if e.cx = (e.lines.getD e.cl []).length ∧ e.cl + 1 < e.lines.length then
      { e with cl := e.cl + 1, cx := 0 }
    else e
  let e := adjust e
  let highlightedRunes := getHighlightedRunes e
  let e := deleteN highlightCount e
  (e, .delHighlighted (getLineNumber e) e.cx highlightedRunes)

/-- Go `Editor.fnHandleRuneSingle` (editor.go lines 622-638). -/
def fnHandleRuneSingle (e : Editor) (r : Char) : Editor × UndoEntry :=
  let step :
      Editor × Option (Nat × Nat × List Char) :=
    if e.highlighted ≠ [] then
      let p := fnDeleteHighlighted e
      match p.2 with
      | .delHighlighted ln cx rs => (p.1, some (ln, cx, rs))
      | _ => (p.1, none)
    else (e, none)
  let e := handleRune step.1 r
  (e, .insSingle (getLineNumber e) e.cx step.2)

/-- Go `Editor.fnHandleRuneMulti` (editor.go lines 640-660). -/
def fnHandleRuneMulti (e : Editor) (rs : List Char) : Editor × UndoEntry :=
  let step :
      Editor × Option (Nat × Nat × List Char) :=
    if e.highlighted ≠ [] then
      let p := fnDeleteHighlighted e
      match p.2 with
      | .delHighlighted ln cx hrs => (p.1, some (ln, cx, hrs))
      | _ => (p.1, none)
    else (e, none)
  let e := rs.foldl handleRune step.1
  (e, .insMulti (getLineNumber e) e.cx rs.length step.2)

/-- Go `Editor.fnDeleteSinglePrevious` (editor.go lines 1141-1166). -/
def fnDeleteSinglePrevious (e : Editor) : Editor × UndoEntry :=
  if e.cl = 0 ∧ e.cx = 0 then (e, .noop)
  else if e.cx = 0 then
    let e := deletePrevious e
    (e, .delNewline (getLineNumber e) e.cx)
  else
    let curRune := (e.lines.getD e.cl []).getD (e.cx - 1) ' '
    let e := deletePrevious e
    (e, .delChar (getLineNumber e) e.cx curRune)

/-- The forward line swap of Go `Editor.fnSwapUp`: exchange the values
of the cursor line and its predecessor, move the cursor up, clamp. -/
def swapPrev (e : Editor) : Editor :=
  let cur := e.lines.getD e.cl []
  let prev := e.lines.getD (e.cl - 1) []
  fixPosition
    { e with lines := (e.lines.set e.cl prev).set (e.cl - 1) cur, cl := e.cl - 1 }

/-- The forward line swap of Go `Editor.fnSwapDown`: exchange the values
of the cursor line and its successor, move the cursor down, clamp. -/
def swapNext (e : Editor) : Editor :=
  let cur := e.lines.getD e.cl []
  let next := e.lines.getD (e.cl + 1) []
  fixPosition
    { e with lines := (e.lines.set e.cl next).set (e.cl + 1) cur, cl := e.cl + 1 }

/-- Go `Editor.fnSwapUp` (editor.go lines 1107-1128). -/
def fnSwapUp (e : Editor) : Editor × UndoEntry :=
  if 0 < e.cl then
    let e := swapPrev e
    (e, .swapWithNext (getLineNumber e) e.cx)
  else (e, .noop)

/-- Go `Editor.fnSwapDown` (editor.go lines 1084-1105). -/
def fnSwapDown (e : Editor) : Editor × UndoEntry :=
  if e.cl + 1 < e.lines.length then
    let e := swapNext e
    (e, .swapWithPrev (getLineNumber e) e.cx)
  else (e, .noop)

/-- Go `Editor.storeUndoAction` (editor.go lines 1065-1069): push only in
edit mode. -/
def storeUndoAction (e : Editor) (a : UndoEntry) : Editor :=
  if e.mode = EDIT_MODE then { e with undoStack := e.undoStack ++ [a] } else e

/-- Replay of a captured `fnDeleteHighlighted` inverse nested inside an
insert inverse: move to the captured position and retype the captured
runes.  `none` is the `func() bool { return false }` default, which does
nothing. -/
def applyNestedHl : Option (Nat × Nat × List Char) → Editor → Option Editor
  | none, e => some e
  | some (ln, cx, rs), e =>
    (moveCursor e (ln : Int) (cx : Int)).map (fun e => rs.foldl handleRune e)

/-- Invocation of a stored undo closure; `none` models `log.Fatalf`
inside `MoveCursor` and the `Bool` is the closure's return value. -/
def applyUndo (a : UndoEntry) (e : Editor) : Option (Editor × Bool) :=
  match a with
  | .noop => some (e, false)
  | .delHighlighted ln cx rs =>
    (moveCursor e (ln : Int) (cx : Int)).map (fun e => (rs.foldl handleRune e, true))
  | .insSingle ln cx nested => do
    let e ← moveCursor e (ln : Int) (cx : Int)
    let e := deletePrevious e
    let e ← applyNestedHl nested e
    some (e, true)
  | .insMulti ln cx count nested => do
    let e ← moveCursor e (ln : Int) (cx : Int)
    let e := deleteN count e
    let e ← applyNestedHl nested e
    some (e, true)
  | .delNewline ln cx =>
    (moveCursor e (ln : Int) (cx : Int)).map (fun e => (handleRune e '\n', true))
  | .delChar ln cx r =>
    (moveCursor e (ln : Int) (cx : Int)).map (fun e => (handleRune e r, true))
  | .swapWithNext ln cx =>
    (moveCursor e (ln : Int) (cx : Int)).map (fun e => (swapNext e, true))
  | .swapWithPrev ln cx =>
    (moveCursor e (ln : Int) (cx : Int)).map (fun e => (swapPrev e, true))

/-- The undo loop of Go `Editor.Update` (editor.go lines 767-773): pop
and invoke entries until one reports that it did real work. -/
def undoLoopAux : Nat → Editor → Option Editor
  | 0, e => some e
  | fuel + 1, e =>
    match e.undoStack.getLast? with
    | none => some e
    | some entry =>
      match applyUndo entry e with
      | none => none
      | some (e', notNoop) =>
        let e'' := { e' with undoStack := e'.undoStack.dropLast }
        if notNoop then some e'' else undoLoopAux fuel e''

/-- Pop-and-invoke undo entries; the stack length bounds the iteration
because no inverse action pushes. -/
def undoLoop (e : Editor) : Option Editor := undoLoopAux e.undoStack.length e

/-- The word-boundary set of the option-movement scans
(editor.go line 846). -/
def emptyType (c : Char) : Bool := c = ' ' || c = '.' || c = ','

/-- The option+right scan loop (editor.go lines 850-863) over one line's
values, returning the final offset and highlight set. -/
def optRightAux (fuel : Nat) (vals : List Char) (li : Nat) (shift : Bool)
    (cx : Nat) (hl : List (Nat × Nat)) : Nat × List (Nat × Nat) :=
  match fuel with
  | 0 => (cx, hl)
  | f + 1 =>
    if cx + 2 < vals.length then
      let hl := if shift then hlInsert hl li cx else hl
      let cx := cx + 1
      if emptyType (vals.getD cx ' ') then (cx, hl)
      else
        let hl := if shift then hlInsert hl li cx else hl
        optRightAux f vals li shift cx hl
    else (cx, hl)

/-- The command+right loop (editor.go lines 864-870). -/
def cmdRightAux (fuel : Nat) (vals : List Char) (li : Nat) (shift : Bool)
    (cx : Nat) (hl : List (Nat × Nat)) : Nat × List (Nat × Nat) :=
  match fuel with
  | 0 => (cx, hl)
  | f + 1 =>
    if cx + 1 < vals.length then
      let hl := if shift then hlInsert hl li cx else hl
      cmdRightAux f vals li shift (cx + 1) hl
    else (cx, hl)

/-- The first option+left loop (editor.go lines 887-896): retreat past
boundary characters, stopping after the first non-boundary one. -/
def optLeft1 (vals : List Char) (li : Nat) (shift : Bool) :
    Nat → List (Nat × Nat) → Nat × List (Nat × Nat)
  | 0, hl => (0, hl)
  | cx + 1, hl =>
    let hl := if shift then hlInsert hl li cx else hl
    if emptyType (vals.getD cx ' ') then optLeft1 vals li shift cx hl
    else (cx, hl)

/-- The second option+left loop (editor.go lines 898-911): retreat while
the previous character is a non-boundary one. -/
def optLeft2 (vals : List Char) (li : Nat) (shift : Bool) :
    Nat → List (Nat × Nat) → Nat × List (Nat × Nat)
  | 0, hl => (0, hl)
  | cx + 1, hl =>
    if emptyType (vals.getD cx ' ') then (cx + 1, hl)
    else
      let hl := if shift then hlInsert hl li (cx + 1) else hl
      let hl := if shift then hlInsert hl li cx else hl
      optLeft2 vals li shift cx hl

/-- The command+left loop (editor.go lines 912-918). -/
def cmdLeftLoop (li : Nat) (shift : Bool) :
    Nat → List (Nat × Nat) → Nat × List (Nat × Nat)
  | 0, hl => (0, hl)
  | cx + 1, hl =>
    let hl := if shift then hlInsert hl li cx else hl
    cmdLeftLoop li shift cx hl

/-- The plain right-arrow step (editor.go lines 871-883). -/
def plainRight (e : Editor) (shift : Bool) : Editor :=
  let vals := e.lines.getD e.cl []
  if e.cx + 1 < vals.length then
    let e := if shift then highlight e e.cl e.cx else e
    { e with cx := e.cx + 1 }
  else if e.cl + 1 < e.lines.length then
    let e := if shift then highlight e e.cl (vals.length - 1) else e
    { e with cl := e.cl + 1, cx := 0 }
  else e

/-- The plain left-arrow step (editor.go lines 919-931). -/
def plainLeft (e : Editor) (shift : Bool) : Editor :=
  if 0 < e.cx then
    let e := { e with cx := e.cx - 1 }
    if shift then highlight e e.cl e.cx else e
  else if 0 < e.cl then
    let e := { e with cl := e.cl - 1 }
    let e := { e with cx := (e.lines.getD e.cl []).length - 1 }
    if shift then highlight e e.cl e.cx else e
  else e

/-- The plain up-arrow step (editor.go lines 950-962). -/
def plainUp (e : Editor) (shift : Bool) : Editor :=
  let e :=
    if shift then { e with highlighted := hlInsertMany e.highlighted e.cl (List.range e.cx) }
    else e
  let e :=
    if 0 < e.cl then
      let e := { e with cl := e.cl - 1 }
      if shift then
        { e with
          highlighted :=
            hlInsertMany e.highlighted e.cl
              (List.range' e.cx ((e.lines.getD e.cl []).length - e.cx)) }
      else e
    else { e with cx := 0 }
  fixPosition e

/-- The plain down-arrow step (editor.go lines 982-994). -/
def plainDown (e : Editor) (shift : Bool) : Editor :=
  if e.cl + 1 < e.lines.length then
    let e := if shift then highlightLineToRight e else e
    let e := fixPosition { e with cl := e.cl + 1 }
    if shift then highlightLineToLeft e else e
  else
    { e with cx := (e.lines.getD e.cl []).length - 1 }

/-- The command+up walk (editor.go lines 937-949). -/
def cmdUpAux : Nat → Editor → Bool → Editor
  | 0, e, _ => e
  | fuel + 1, e, shift =>
    if 0 < e.cl then
      let e := if shift then highlightLine e else e
      let e := { e with cl := e.cl - 1, cx := 0 }
      let e := if shift then highlightLineToRight e else e
      cmdUpAux fuel e shift
    else e

/-- The command+up branch. -/
def cmdUp (e : Editor) (shift : Bool) : Editor :=
  let e := if shift then highlightLineToLeft e else e
  cmdUpAux e.cl e shift

/-- The command+down walk (editor.go lines 967-976). -/
def cmdDownAux : Nat → Editor → Bool → Editor
  | 0, e, _ => e
  | fuel + 1, e, shift =>
    if e.cl + 1 < e.lines.length then
      let e := if shift then highlightLineToRight e else e
      let e := { e with cl := e.cl + 1 }
      let e := if shift then highlightLineToLeft e else e
      cmdDownAux fuel e shift
    else e

/-- The command+down branch (editor.go lines 967-981). -/
def cmdDown (e : Editor) (shift : Bool) : Editor :=
  let e := cmdDownAux e.lines.length e shift
  let e := if shift then highlightLineToRight e else e
  { e with cx := (e.lines.getD e.cl []).length - 1 }

/-- Arrow direction. -/
inductive Dir where
  | right : Dir
  | left : Dir
  | up : Dir
  | down : Dir
  deriving DecidableEq, Repr

/-- The movement branch of Go `Editor.Update` (editor.go lines 836-999). -/
def moveArrow (e : Editor) (dir : Dir) (shift opt cmd : Bool) : Editor :=
  let e := editMode e
  let e := if shift then e else resetHighlight e
  match dir with
  | .right =>
    if opt then
      let p := optRightAux (e.lines.getD e.cl []).length (e.lines.getD e.cl [])
        e.cl shift e.cx e.highlighted
      { e with cx := p.1, highlighted := p.2 }
    else if cmd then
      let p := cmdRightAux (e.lines.getD e.cl []).length (e.lines.getD e.cl [])
        e.cl shift e.cx e.highlighted
      { e with cx := p.1, highlighted := p.2 }
    else plainRight e shift
  | .left =>
    if opt then
      let p := optLeft1 (e.lines.getD e.cl []) e.cl shift e.cx e.highlighted
      let p := optLeft2 (e.lines.getD e.cl []) e.cl shift p.1 p.2
      { e with cx := p.1, highlighted := p.2 }
    else if cmd then
      let p := cmdLeftLoop e.cl shift e.cx e.highlighted
      { e with cx := p.1, highlighted := p.2 }
    else plainLeft e shift
  | .up =>
    if opt then
      let p := fnSwapUp e
      storeUndoAction p.1 p.2
    else if cmd then cmdUp e shift
    else plainUp e shift
  | .down =>
    if opt then
      let p := fnSwapDown e
      storeUndoAction p.1 p.2
    else if cmd then cmdDown e shift
    else plainDown e shift

/-- One decoded input request, mirroring the dispatch of Go
`Editor.Update` (editor.go lines 710-1062). -/
inductive Request where
  | find : Request
  | arrow (dir : Dir) (shift opt cmd : Bool) : Request
  | escape : Request
  | undo : Request
  | save : Request
  | selectAll : Request
  | paste : Request
  | cut : Request
  | copy : Request
  | enter : Request
  | tab : Request
  | backspace : Request
  | keyRune (r : Char) : Request
  deriving DecidableEq, Repr

/-- One tab-inserted space: `storeUndoAction(fnHandleRuneSingle(' '))`. -/
def tabStep (e : Editor) : Editor :=
  let p := fnHandleRuneSingle e ' '
  storeUndoAction p.1 p.2

/-- Go `Editor.Update` on one decoded request; `none` models
`log.Fatalf` reached through an undo closure's `MoveCursor`. -/
def update (e : Editor) (req : Request) : Option Editor :=
  match req with
  | .find =>
    some (if e.mode = SEARCH_MODE then editMode e else searchMode e)
  | .arrow dir shift opt cmd =>
    if (dir = .up ∨ dir = .down) ∧ e.mode = SEARCH_MODE then
      let e :=
        if dir = .up then
          if -1 < e.searchIndex then { e with searchIndex := e.searchIndex - 1 } else e
        else { e with searchIndex := e.searchIndex + 1 }
      some (search e)
    else some (moveArrow e dir shift opt cmd)
  | .escape => some (editMode e)
  | .undo => undoLoop (resetHighlight (editMode e))
  | .save => some (save e)
  | .selectAll => some (fnSelectAll (editMode e))
  | .paste =>
    let p := fnHandleRuneMulti e e.clipboard
    some (setModified (storeUndoAction p.1 p.2))
  | .cut =>
    let copyRunes := getHighlightedRunes e
    if copyRunes = [] then some e
    else
      let e := { e with clipboard := copyRunes }
      let p := fnDeleteHighlighted e
      some (setModified (resetHighlight (storeUndoAction p.1 p.2)))
  | .copy =>
    if e.highlighted = [] then some e
    else some { e with clipboard := getHighlightedRunes e }
  | .enter =>
    if e.mode = SEARCH_MODE then
      some (search { e with searchIndex := e.searchIndex + 1 })
    else
      let p := fnHandleRuneSingle e '\n'
      some (storeUndoAction p.1 p.2)
  | .tab =>
    if e.mode = SEARCH_MODE then
      some (search { e with searchIndex := e.searchIndex + 1 })
    else some (tabStep (tabStep (tabStep (tabStep e))))
  | .backspace =>
    if e.mode = SEARCH_MODE then
      some (search { e with searchTerm := e.searchTerm.dropLast })
    else
      let p :=
        if e.highlighted ≠ [] then fnDeleteHighlighted e else fnDeleteSinglePrevious e
      some (setModified (resetHighlight (storeUndoAction p.1 p.2)))
  | .keyRune r =>
    let p := fnHandleRuneSingle e r
    some (storeUndoAction p.1 p.2)

/-! ### List helper lemmas -/

theorem getD_append_len {α : Type} (A : List α) (x : α) (B : List α) (d : α) :
    (A ++ x :: B).getD A.length d = x := by
  induction A with
  | nil => rfl
  | cons a t ih => simpa using ih

theorem set_append_len {α : Type} (A : List α) (x y : α) (B : List α) :
    (A ++ x :: B).set A.length y = A ++ y :: B := by
  induction A with
  | nil => rfl
  | cons a t ih => simp only [List.cons_append, List.length_cons, List.set_cons_succ, ih]

theorem eraseIdx_append_len {α : Type} (A : List α) (x : α) (B : List α) :
    (A ++ x :: B).eraseIdx A.length = A ++ B := by
  induction A with
  | nil => rfl
  | cons a t ih => simpa using ih

theorem insertIdx_append_len {α : Type} (A B : List α) (x : α) :
    (A ++ B).insertIdx A.length x = A ++ x :: B := by
  induction A with
  | nil => rfl
  | cons a t ih => simpa [List.insertIdx] using ih

theorem list_decomp {α : Type} (L : List α) (n : Nat) (d : α) (h : n < L.length) :
    L = L.take n ++ L.getD n d :: L.drop (n + 1) := by
  conv_lhs => rw [← List.take_append_drop n L]
  rw [List.drop_eq_getElem_cons h, List.getD_eq_getElem L d h]

theorem length_take_of_le {α : Type} {L : List α} {n : Nat} (h : n ≤ L.length) :
    (L.take n).length = n := by
  simp [List.length_take, Nat.min_eq_left h]

theorem set_getD_self {α : Type} (L : List α) (n : Nat) (d : α) (h : n < L.length) :
    L.set n (L.getD n d) = L := by
  rw [List.getD_eq_getElem L d h]
  apply List.ext_getElem?
  intro k
  by_cases hk : k = n
  · subst hk; simp [List.getElem?_set_self', List.getElem?_eq_getElem h]
  · rw [List.getElem?_set_ne (Ne.symm hk)]

/-! ### MoveCursor characterization (claim C6) -/

theorem moveWalkAux_at_target (n : Nat) (row : Nat) :
    ∀ fuel i, i ≤ row → row < n → row ≤ i + fuel →
      moveWalkAux n (row : Int) fuel i = some row := by
  intro fuel
  induction fuel with
  | zero =>
    intro i h1 _ h3
    have hi : i = row := by omega
    subst hi
    simp [moveWalkAux]
  | succ f ih =>
    intro i h1 h2 h3
    by_cases hi : i = row
    · subst hi; simp [moveWalkAux]
    · have hlt : i < row := lt_of_le_of_ne h1 hi
      have hstep : i + 1 < n := by omega
      rw [moveWalkAux]
      simp only [Int.natCast_inj]
      rw [if_neg hi, if_pos hstep]
      exact ih (i + 1) (by omega) h2 (by omega)

theorem moveWalkAux_neg (n : Nat) (row : Int) (hrow : row < 0) :
    ∀ fuel i, i < n → n - 1 ≤ i + fuel →
      moveWalkAux n row fuel i = some (n - 1) := by
  intro fuel
  induction fuel with
  | zero =>
    intro i h1 h3
    have hi : i = n - 1 := by omega
    have hne : ¬ ((i : Int) = row) := by omega
    have hnlt : ¬ (i + 1 < n) := by omega
    rw [moveWalkAux, if_neg hne, if_neg hnlt, if_pos hrow, hi]
  | succ f ih =>
    intro i h1 h3
    have hne : ¬ ((i : Int) = row) := by omega
    by_cases hstep : i + 1 < n
    · rw [moveWalkAux, if_neg hne, if_pos hstep]
      exact ih (i + 1) (by omega) (by omega)
    · have hi : i = n - 1 := by omega
      rw [moveWalkAux, if_neg hne, if_neg hstep, if_pos hrow, hi]

theorem moveWalkAux_past_end (n : Nat) (row : Int) (hrow : (n : Int) ≤ row) :
    ∀ fuel i, i < n → moveWalkAux n row fuel i = none := by
  intro fuel
  induction fuel with
  | zero =>
    intro i h1
    have hne : ¬ ((i : Int) = row) := by omega
    have hneg : ¬ (row < 0) := by omega
    by_cases hstep : i + 1 < n
    · rw [moveWalkAux, if_neg hne, if_pos hstep]
    · rw [moveWalkAux, if_neg hne, if_neg hstep, if_neg hneg]
  | succ f ih =>
    intro i h1
    have hne : ¬ ((i : Int) = row) := by omega
    have hneg : ¬ (row < 0) := by omega
    by_cases hstep : i + 1 < n
    · rw [moveWalkAux, if_neg hne, if_pos hstep]
      exact ih (i + 1) (by omega)
    · rw [moveWalkAux, if_neg hne, if_neg hstep, if_neg hneg]

theorem moveWalk_lt (n row : Nat) (h : row < n) : moveWalk n (row : Int) = some row :=
  moveWalkAux_at_target n row n 0 (Nat.zero_le _) h (by omega)

theorem moveWalk_neg (n : Nat) (row : Int) (hrow : row < 0) (hn : 0 < n) :
    moveWalk n row = some (n - 1) :=
  moveWalkAux_neg n row hrow n 0 hn (by omega)

theorem moveWalk_past_end (n : Nat) (row : Int) (hrow : (n : Int) ≤ row) (hn : 0 < n) :
    moveWalk n row = none :=
  moveWalkAux_past_end n row hrow n 0 hn

theorem moveCursor_eq (e : Editor) (ln cx : Nat) (h : ln < e.lines.length) :
    moveCursor e (ln : Int) (cx : Int) = some { e with cl := ln, cx := cx } := by
  have hcol : ¬ ((cx : Int) = -1) := by omega
  rw [moveCursor, moveWalk_lt _ _ h]
  simp [hcol]

/-- C6 (amended): characterization of `MoveCursor`.  With `col = -1` the
cursor lands on the last character of the target row, and a negative
`row` lands on the last line; but a non-negative `row` past the last
line takes the `log.Fatalf` path (modelled `none`) instead of landing on
the last line. -/
theorem moveCursor_semantics (e : Editor) (row col : Int) (hn : 0 < e.lines.length) :
    (row < 0 →
      moveCursor e row col
        = some { e with
                 cl := e.lines.length - 1,
                 cx := if col = -1 then
                     (e.lines.getD (e.lines.length - 1) []).length - 1
                   else col.toNat }) ∧
    (0 ≤ row → row < (e.lines.length : Int) →
      moveCursor e row col
        = some { e with
                 cl := row.toNat,
                 cx := if col = -1 then (e.lines.getD row.toNat []).length - 1
                   else col.toNat }) ∧
    ((e.lines.length : Int) ≤ row → moveCursor e row col = none) := by
  refine ⟨fun hneg => ?_, fun h0 hlt => ?_, fun hge => ?_⟩
  · rw [moveCursor, moveWalk_neg _ _ hneg hn]
    rfl
  · have hrow : row = ((row.toNat : Nat) : Int) := by omega
    have hlt' : row.toNat < e.lines.length := by omega
    rw [moveCursor, hrow, moveWalk_lt _ _ hlt']
    rfl
  · rw [moveCursor, moveWalk_past_end _ _ hge hn]
    rfl

/-- Witness for C6 on a concrete two-line document. -/
theorem moveCursor_semantics_witness :
    (0 : Nat) < (newEditor ("ab\ncd\n".toList)).lines.length ∧
    moveCursor (newEditor ("ab\ncd\n".toList)) (-3) (-1)
      = some { newEditor ("ab\ncd\n".toList) with cl := 1, cx := 2 } ∧
    moveCursor (newEditor ("ab\ncd\n".toList)) 7 0 = none := by
  have h := moveCursor_semantics (newEditor ("ab\ncd\n".toList)) (-3) (-1) (by decide)
  have h2 := moveCursor_semantics (newEditor ("ab\ncd\n".toList)) 7 0 (by decide)
  refine ⟨by decide, ?_, h2.2.2 (by decide)⟩
  rw [h.1 (by decide)]
  rfl

/-! ### Search cycling (claim C7) -/

/-- C7 (amended): the cursor-cycling behaviour of `search()`.  With `N ≥ 1`
matches: the sentinel `searchIndex = -1` jumps to the last match and sets
the index to `N - 1`; an index beyond `N - 1` wraps to 0 and moves to
match 0; otherwise the cursor moves to the match at `searchIndex`.  With
a non-empty term and no matches, `searchIndex` is reset to 0 (an empty
term makes `search()` return before the reset, which is the correction to
the claim). -/
theorem search_cycling_semantics (e : Editor) (hterm : e.searchTerm ≠ []) :
    (searchAnchors e.lines e.searchTerm ≠ [] → e.searchIndex = -1 →
      (search e).cl = ((searchAnchors e.lines e.searchTerm).getLast?.getD (0, 0)).1 ∧
      (search e).cx = ((searchAnchors e.lines e.searchTerm).getLast?.getD (0, 0)).2 ∧
      (search e).searchIndex = ((searchAnchors e.lines e.searchTerm).length : Int) - 1) ∧
    (searchAnchors e.lines e.searchTerm ≠ [] →
      ((searchAnchors e.lines e.searchTerm).length : Int) - 1 < e.searchIndex →
      (search e).searchIndex = 0 ∧
      (search e).cl = ((searchAnchors e.lines e.searchTerm).getD 0 (0, 0)).1 ∧
      (search e).cx = ((searchAnchors e.lines e.searchTerm).getD 0 (0, 0)).2) ∧
    (searchAnchors e.lines e.searchTerm ≠ [] → e.searchIndex ≠ -1 →
      ¬ (((searchAnchors e.lines e.searchTerm).length : Int) - 1 < e.searchIndex) →
      (search e).cl
          = ((searchAnchors e.lines e.searchTerm).getD e.searchIndex.toNat (0, 0)).1 ∧
      (search e).cx
          = ((searchAnchors e.lines e.searchTerm).getD e.searchIndex.toNat (0, 0)).2) ∧
    (searchAnchors e.lines e.searchTerm = [] → (search e).searchIndex = 0) := by
  refine ⟨fun ha hidx => ?_, fun ha hidx => ?_, fun ha hidx1 hidx2 => ?_, fun ha => ?_⟩
  · rw [search]
    simp only [searchAnchors] at ha ⊢
    simp [hterm, ha, hidx]
  · rw [search]
    simp only [searchAnchors] at ha hidx ⊢
    have hne : e.searchIndex ≠ -1 := by
      intro h
      rw [h] at hidx
      omega
    simp [hterm, ha, hne, hidx]
  · rw [search]
    simp only [searchAnchors] at ha hidx2 ⊢
    simp [hterm, ha, hidx1, hidx2]
  · rw [search]
    simp only [searchAnchors] at ha ⊢
    simp [hterm, ha]

/-- Witness for C7 on a concrete document with two matches. -/
theorem search_cycling_semantics_witness :
    ({ newEditor ("a\nxa\n".toList) with
        mode := SEARCH_MODE, searchTerm := ['a'], searchIndex := -1 } : Editor).searchTerm
        ≠ [] ∧
    searchAnchors ({ newEditor ("a\nxa\n".toList) with
        mode := SEARCH_MODE, searchTerm := ['a'], searchIndex := -1 } : Editor).lines
        ['a'] ≠ [] ∧
    (search { newEditor ("a\nxa\n".toList) with
        mode := SEARCH_MODE, searchTerm := ['a'], searchIndex := -1 }).cl = 1 ∧
    (search { newEditor ("a\nxa\n".toList) with
        mode := SEARCH_MODE, searchTerm := ['a'], searchIndex := -1 }).searchIndex = 1 := by
  have h := search_cycling_semantics
    { newEditor ("a\nxa\n".toList) with
        mode := SEARCH_MODE, searchTerm := ['a'], searchIndex := -1 } (by decide)
  have h1 := h.1 (by decide) rfl
  exact ⟨by decide, by decide, by rw [h1.1]; rfl, by rw [h1.2.2]; rfl⟩

/-! ### The merge branch of deletePrevious (claim C8) -/

theorem deletePrevious_merge_decomp (e : Editor) (A : List Line) (p c : Line)
    (B : List Line) (hL : e.lines = A ++ p :: c :: B) (hlenA : A.length = e.cl - 1)
    (hcl : 0 < e.cl) (hcx : e.cx = 0) :
    deletePrevious e
      = { e with lines := A ++ (p.dropLast ++ c) :: B, cl := e.cl - 1,
                 cx := p.length - 1 } := by
  have hclA : e.cl = A.length + 1 := by omega
  have hcur : e.lines.getD e.cl [] = c := by
    rw [hL, hclA]
    have : A ++ p :: c :: B = (A ++ [p]) ++ c :: B := by simp
    rw [this, show A.length + 1 = (A ++ [p]).length by simp]
    exact getD_append_len ..
  have hprev : e.lines.getD (e.cl - 1) [] = p := by
    rw [hL, ← hlenA]
    exact getD_append_len ..
  rw [deletePrevious]
  rw [if_neg (by rintro ⟨h0, -⟩; omega)]
  rw [if_pos hcx, if_pos hcl]
  simp only [hcx, hcur, hprev]
  have hlines :
      (e.lines.set (e.cl - 1) (p.dropLast ++ c)).eraseIdx e.cl
        = A ++ (p.dropLast ++ c) :: B := by
    rw [hL, ← hlenA, set_append_len, hclA]
    have : A ++ (p.dropLast ++ c) :: c :: B = (A ++ [p.dropLast ++ c]) ++ c :: B := by
      simp
    rw [this, show A.length + 1 = (A ++ [p.dropLast ++ c]).length by simp,
      eraseIdx_append_len]
    simp
  rw [hlines]

/-- C8: whenever the cursor is at offset 0 of a line with a previous
line, `deletePrevious` drops the previous line's last character (its
trailing newline), appends the whole current line to it, splices the
current line out, and puts the cursor at the previous line's former end
offset; and the concrete scenario: loading `"a\nb\n"` and deleting twice
from (line 1, offset 1) leaves the single line `"a\n"`. -/
theorem deletePrevious_merge_semantics (e : Editor)
    (hcl : 0 < e.cl) (hcln : e.cl < e.lines.length) (hcx : e.cx = 0) :
    ((deletePrevious e).lines
        = e.lines.take (e.cl - 1)
            ++ ((e.lines.getD (e.cl - 1) []).dropLast ++ e.lines.getD e.cl [])
              :: e.lines.drop (e.cl + 1) ∧
      (deletePrevious e).cl = e.cl - 1 ∧
      (deletePrevious e).cx = (e.lines.getD (e.cl - 1) []).length - 1) ∧
    (readText (deletePrevious (deletePrevious
        { newEditor ("a\nb\n".toList) with cl := 1, cx := 1 })) = "a\n".toList ∧
      (deletePrevious (deletePrevious
        { newEditor ("a\nb\n".toList) with cl := 1, cx := 1 })).lines.length = 1) := by
  have h1 : e.cl - 1 < e.lines.length := by omega
  have hd2 : e.lines.drop e.cl = e.lines.getD e.cl [] :: e.lines.drop (e.cl + 1) := by
    rw [List.drop_eq_getElem_cons hcln, List.getD_eq_getElem _ _ hcln]
  have hL : e.lines
      = e.lines.take (e.cl - 1)
          ++ e.lines.getD (e.cl - 1) []
            :: e.lines.getD e.cl [] :: e.lines.drop (e.cl + 1) := by
    conv_lhs => rw [list_decomp e.lines (e.cl - 1) [] h1]
    rw [Nat.sub_add_cancel hcl, hd2]
  have hlenA : (e.lines.take (e.cl - 1)).length = e.cl - 1 :=
    length_take_of_le (by omega)
  have key := deletePrevious_merge_decomp e (e.lines.take (e.cl - 1))
    (e.lines.getD (e.cl - 1) []) (e.lines.getD e.cl [])
    (e.lines.drop (e.cl + 1)) hL hlenA hcl hcx
  refine ⟨⟨?_, ?_, ?_⟩, by constructor <;> rfl⟩ <;> rw [key]

/-- Witness for C8 at the concrete state `"a\nb\n"`, cursor (1,0). -/
theorem deletePrevious_merge_semantics_witness :
    (0 : Nat) < ({ newEditor ("a\nb\n".toList) with cl := 1, cx := 0 } : Editor).cl ∧
    (deletePrevious { newEditor ("a\nb\n".toList) with cl := 1, cx := 0 }).lines
      = ["ab\n".toList] ∧
    (deletePrevious { newEditor ("a\nb\n".toList) with cl := 1, cx := 0 }).cl = 0 ∧
    (deletePrevious { newEditor ("a\nb\n".toList) with cl := 1, cx := 0 }).cx = 1 := by
  have h := deletePrevious_merge_semantics
    { newEditor ("a\nb\n".toList) with cl := 1, cx := 0 }
    (by decide) (by decide) rfl
  refine ⟨by decide, ?_, ?_, ?_⟩
  · rw [h.1.1]; decide
  · rw [h.1.2.1]; decide
  · rw [h.1.2.2]; decide

/-! ### Search mode never pushes undo entries (claim C10) -/

theorem search_frame (e : Editor) :
    (search e).undoStack = e.undoStack ∧ (search e).mode = e.mode := by
  rw [search]
  split
  · exact ⟨rfl, rfl⟩
  · dsimp only
    split
    · split
      · exact ⟨rfl, rfl⟩
      · split
        · exact ⟨rfl, rfl⟩
        · exact ⟨rfl, rfl⟩
    · exact ⟨rfl, rfl⟩

theorem handleRune_frame (e : Editor) (r : Char) :
    (handleRune e r).undoStack = e.undoStack ∧ (handleRune e r).mode = e.mode := by
  rw [handleRune]
  split
  · exact search_frame _
  · split
    · split <;> exact ⟨rfl, rfl⟩
    · split <;> exact ⟨rfl, rfl⟩

theorem foldl_handleRune_frame (rs : List Char) :
    ∀ e : Editor, (rs.foldl handleRune e).undoStack = e.undoStack ∧
      (rs.foldl handleRune e).mode = e.mode := by
  induction rs with
  | nil => exact fun e => ⟨rfl, rfl⟩
  | cons r t ih =>
    intro e
    have h1 := handleRune_frame e r
    have h2 := ih (handleRune e r)
    exact ⟨h2.1.trans h1.1, h2.2.trans h1.2⟩

theorem deletePrevious_frame (e : Editor) :
    (deletePrevious e).undoStack = e.undoStack ∧ (deletePrevious e).mode = e.mode := by
  rw [deletePrevious]
  split
  · exact ⟨rfl, rfl⟩
  · split
    · split
      · exact ⟨rfl, rfl⟩
      · exact ⟨rfl, rfl⟩
    · exact ⟨rfl, rfl⟩

theorem deleteN_frame (n : Nat) :
    ∀ e : Editor, (deleteN n e).undoStack = e.undoStack ∧
      (deleteN n e).mode = e.mode := by
  induction n with
  | zero => exact fun e => ⟨rfl, rfl⟩
  | succ m ih =>
    intro e
    have h1 := deletePrevious_frame e
    have h2 := ih (deletePrevious e)
    exact ⟨h2.1.trans h1.1, h2.2.trans h1.2⟩

theorem fnDeleteHighlighted_frame (e : Editor) :
    ((fnDeleteHighlighted e).1).undoStack = e.undoStack ∧
      ((fnDeleteHighlighted e).1).mode = e.mode := by
  rw [fnDeleteHighlighted]
  simp only []
  have := deleteN_frame ((e.highlighted.filter (fun p => p.1 < e.lines.length)).length)
  constructor
  · refine ((this _).1).trans ?_
    split <;> rfl
  · refine ((this _).2).trans ?_
    split <;> rfl

theorem fnHandleRuneSingle_frame (e : Editor) (r : Char) :
    ((fnHandleRuneSingle e r).1).undoStack = e.undoStack ∧
      ((fnHandleRuneSingle e r).1).mode = e.mode := by
  rw [fnHandleRuneSingle]
  simp only []
  split
  · have h1 := fnDeleteHighlighted_frame e
    split
    · have h2 := handleRune_frame (fnDeleteHighlighted e).1 r
      exact ⟨h2.1.trans h1.1, h2.2.trans h1.2⟩
    · have h2 := handleRune_frame (fnDeleteHighlighted e).1 r
      exact ⟨h2.1.trans h1.1, h2.2.trans h1.2⟩
  · exact handleRune_frame e r

theorem fnHandleRuneMulti_frame (e : Editor) (rs : List Char) :
    ((fnHandleRuneMulti e rs).1).undoStack = e.undoStack ∧
      ((fnHandleRuneMulti e rs).1).mode = e.mode := by
  rw [fnHandleRuneMulti]
  simp only []
  split
  · have h1 := fnDeleteHighlighted_frame e
    split
    · have h2 := foldl_handleRune_frame rs (fnDeleteHighlighted e).1
      exact ⟨h2.1.trans h1.1, h2.2.trans h1.2⟩
    · have h2 := foldl_handleRune_frame rs (fnDeleteHighlighted e).1
      exact ⟨h2.1.trans h1.1, h2.2.trans h1.2⟩
  · exact foldl_handleRune_frame rs e

theorem fnDeleteSinglePrevious_frame (e : Editor) :
    ((fnDeleteSinglePrevious e).1).undoStack = e.undoStack ∧
      ((fnDeleteSinglePrevious e).1).mode = e.mode := by
  rw [fnDeleteSinglePrevious]
  split
  · exact ⟨rfl, rfl⟩
  · split
    · exact deletePrevious_frame e
    · exact deletePrevious_frame e

theorem fnSelectAllAux_frame (fuel : Nat) :
    ∀ e : Editor, (fnSelectAllAux fuel e).undoStack = e.undoStack ∧
      (fnSelectAllAux fuel e).mode = e.mode := by
  induction fuel with
  | zero => exact fun e => ⟨rfl, rfl⟩
  | succ m ih =>
    intro e
    rw [fnSelectAllAux]
    split
    · exact ih _
    · exact ⟨rfl, rfl⟩

theorem fnSelectAll_frame (e : Editor) :
    (fnSelectAll e).undoStack = e.undoStack ∧ (fnSelectAll e).mode = e.mode :=
  fnSelectAllAux_frame _ _

theorem plainRight_frame (e : Editor) (shift : Bool) :
    (plainRight e shift).undoStack = e.undoStack ∧
      (plainRight e shift).mode = e.mode := by
  rw [plainRight]
  split
  · split <;> exact ⟨rfl, rfl⟩
  · split
    · split <;> exact ⟨rfl, rfl⟩
    · exact ⟨rfl, rfl⟩

theorem plainLeft_frame (e : Editor) (shift : Bool) :
    (plainLeft e shift).undoStack = e.undoStack ∧
      (plainLeft e shift).mode = e.mode := by
  rw [plainLeft]
  split
  · split <;> exact ⟨rfl, rfl⟩
  · split
    · split <;> exact ⟨rfl, rfl⟩
    · exact ⟨rfl, rfl⟩

theorem moveArrow_lr_frame (e : Editor) (dir : Dir) (shift opt cmd : Bool)
    (hdir : dir = Dir.left ∨ dir = Dir.right) :
    (moveArrow e dir shift opt cmd).undoStack = e.undoStack := by
  have hpre : (if shift then editMode e else resetHighlight (editMode e)).undoStack
      = e.undoStack := by split <;> rfl
  rcases hdir with h | h <;> subst h <;>
    · rw [moveArrow]
      split
      · exact hpre
      · split
        · exact hpre
        · first
          | exact (plainLeft_frame _ shift).1.trans hpre
          | exact (plainRight_frame _ shift).1.trans hpre

theorem storeUndoAction_search (e : Editor) (a : UndoEntry)
    (hm : e.mode = SEARCH_MODE) : storeUndoAction e a = e := by
  rw [storeUndoAction, if_neg]
  rw [hm]
  decide

/-- C10: while the editor is in search mode, `storeUndoAction` never
appends (it appends only in edit mode), and every request other than
undo — search-term append and backspace, match cycling, rune input,
movement, paste, cut, copy, save, select-all, mode toggles — leaves the
undo stack unchanged.  (The undo request itself pops entries, which is
why it is excluded.) -/
theorem searchMode_no_undo_push (e : Editor) (a : UndoEntry) (req : Request)
    (hm : e.mode = SEARCH_MODE) (hreq : req ≠ Request.undo) :
    storeUndoAction e a = e ∧
    ∃ e2, update e req = some e2 ∧ e2.undoStack = e.undoStack := by
  refine ⟨storeUndoAction_search e a hm, ?_⟩
  cases req with
  | find =>
    rw [update, if_pos hm]
    exact ⟨_, rfl, rfl⟩
  | arrow dir shift opt cmd =>
    cases dir with
    | up =>
      rw [update, if_pos ⟨Or.inl rfl, hm⟩]
      refine ⟨_, rfl, ?_⟩
      refine (search_frame _).1.trans ?_
      dsimp only
      split
      · split <;> rfl
      · rfl
    | down =>
      rw [update, if_pos ⟨Or.inr rfl, hm⟩]
      refine ⟨_, rfl, ?_⟩
      refine (search_frame _).1.trans ?_
      dsimp only
      split
      · split <;> rfl
      · rfl
    | left =>
      rw [update, if_neg (by rintro ⟨h, -⟩; rcases h with h | h <;> cases h)]
      exact ⟨_, rfl, moveArrow_lr_frame e _ shift opt cmd (Or.inl rfl)⟩
    | right =>
      rw [update, if_neg (by rintro ⟨h, -⟩; rcases h with h | h <;> cases h)]
      exact ⟨_, rfl, moveArrow_lr_frame e _ shift opt cmd (Or.inr rfl)⟩
  | escape => exact ⟨_, rfl, rfl⟩
  | undo => exact absurd rfl hreq
  | save => exact ⟨_, rfl, rfl⟩
  | selectAll =>
    rw [update]
    exact ⟨_, rfl, (fnSelectAll_frame (editMode e)).1⟩
  | paste =>
    rw [update]
    refine ⟨_, rfl, ?_⟩
    have h1 := fnHandleRuneMulti_frame e e.clipboard
    rw [storeUndoAction_search _ _ (h1.2.trans hm)]
    exact h1.1
  | cut =>
    rw [update]
    dsimp only
    split
    · exact ⟨_, rfl, rfl⟩
    · refine ⟨_, rfl, ?_⟩
      have h1 := fnDeleteHighlighted_frame { e with clipboard := getHighlightedRunes e }
      rw [storeUndoAction_search _ _ (h1.2.trans hm)]
      exact h1.1
  | copy =>
    rw [update]
    split
    · exact ⟨_, rfl, rfl⟩
    · exact ⟨_, rfl, rfl⟩
  | enter =>
    rw [update, if_pos hm]
    exact ⟨_, rfl, (search_frame _).1⟩
  | tab =>
    rw [update, if_pos hm]
    exact ⟨_, rfl, (search_frame _).1⟩
  | backspace =>
    rw [update, if_pos hm]
    exact ⟨_, rfl, (search_frame _).1⟩
  | keyRune r =>
    rw [update]
    refine ⟨_, rfl, ?_⟩
    have h1 := fnHandleRuneSingle_frame e r
    rw [storeUndoAction_search _ _ (h1.2.trans hm)]
    exact h1.1

/-- Witness for C10: a rune keystroke in search mode. -/
theorem searchMode_no_undo_push_witness :
    (searchMode (newEditor ("ab\n".toList))).mode = SEARCH_MODE ∧
    Request.keyRune 'q' ≠ Request.undo ∧
    ∃ e2, update (searchMode (newEditor ("ab\n".toList))) (Request.keyRune 'q') = some e2 ∧
      e2.undoStack = (searchMode (newEditor ("ab\n".toList))).undoStack := by
  have h := searchMode_no_undo_push (searchMode (newEditor ("ab\n".toList)))
    UndoEntry.noop (Request.keyRune 'q') rfl (by decide)
  exact ⟨rfl, by decide, h.2⟩

/-! ### Undo inverse laws (claim C2) -/

/-- Well-formedness of one line: non-empty, ends in a newline, and the
newline occurs only at the end.  Every line produced by `WriteText` and
preserved by ordinary editing satisfies this. -/
def WFline (l : Line) : Prop :=
  l ≠ [] ∧ l.getLast? = some '\n' ∧ '\n' ∉ l.dropLast

/-- Well-formedness of an editor state: the cursor addresses an existing
character of an existing line, and every line is well-formed. -/
def WF (e : Editor) : Prop :=
  e.cl < e.lines.length ∧
  e.cx < (e.lines.getD e.cl []).length ∧
  ∀ l ∈ e.lines, WFline l

instance (l : Line) : Decidable (WFline l) := by unfold WFline; infer_instance

instance (e : Editor) : Decidable (WF e) := by unfold WF; infer_instance

theorem moveCursor_self (e : Editor) (h : e.cl < e.lines.length) :
    moveCursor e (e.cl : Int) (e.cx : Int) = some e := by
  rw [moveCursor_eq e e.cl e.cx h]

theorem WF_decomp (e : Editor) (hwf : WF e) :
    ∃ A m1 m2 B, e.lines = A ++ (m1 ++ m2) :: B ∧ A.length = e.cl ∧
      e.cx = m1.length ∧ m2 ≠ [] ∧ WFline (m1 ++ m2) := by
  obtain ⟨h1, h2, h3⟩ := hwf
  refine ⟨e.lines.take e.cl, (e.lines.getD e.cl []).take e.cx,
    (e.lines.getD e.cl []).drop e.cx, e.lines.drop (e.cl + 1), ?_, ?_, ?_, ?_, ?_⟩
  · rw [List.take_append_drop]
    exact list_decomp e.lines e.cl [] h1
  · exact length_take_of_le (le_of_lt h1)
  · exact (length_take_of_le (le_of_lt h2)).symm
  · intro hc
    have hlen : ((e.lines.getD e.cl []).drop e.cx).length = 0 := by rw [hc]; rfl
    rw [List.length_drop] at hlen
    omega
  · rw [List.take_append_drop]
    refine h3 _ ?_
    rw [List.getD_eq_getElem _ _ h1]
    exact e.lines.getElem_mem h1

theorem WFline_concat_newline (m : List Char) (hm : '\n' ∉ m) :
    WFline (m ++ ['\n']) := by
  refine ⟨by simp, ?_, ?_⟩
  · rw [List.getLast?_concat]
  · rw [List.dropLast_concat]
    exact hm

theorem WFline_parts (m1 m2 : List Char) (h : WFline (m1 ++ m2)) (hm2 : m2 ≠ []) :
    '\n' ∉ m1 ∧ WFline m2 := by
  obtain ⟨-, hlast, hdrop⟩ := h
  rw [List.dropLast_append_of_ne_nil _ hm2] at hdrop
  simp only [List.mem_append] at hdrop
  push_neg at hdrop
  refine ⟨hdrop.1, hm2, ?_, hdrop.2⟩
  rwa [List.getLast?_append_of_ne_nil _ hm2] at hlast

theorem WFline_middle (m1 m2 : List Char) (r : Char) (h : WFline (m1 ++ m2))
    (hm2 : m2 ≠ []) (hr : r ≠ '\n') : WFline (m1 ++ r :: m2) := by
  obtain ⟨hn1, hn2⟩ := WFline_parts m1 m2 h hm2
  refine ⟨by simp, ?_, ?_⟩
  · have h1 : (m1 ++ r :: m2).getLast? = (r :: m2).getLast? :=
      List.getLast?_append_of_ne_nil _ (by simp)
    have h2 : (r :: m2).getLast? = m2.getLast? := by
      rw [show r :: m2 = [r] ++ m2 from rfl]
      exact List.getLast?_append_of_ne_nil _ hm2
    rw [h1, h2]
    exact hn2.2.1
  · rw [List.dropLast_append_of_ne_nil _ (by simp),
      List.dropLast_cons_of_ne_nil hm2]
    simp only [List.mem_append, List.mem_cons]
    rintro (h1 | h2 | h3)
    · exact hn1 h1
    · exact hr h2.symm
    · exact hn2.2.2 h3

/-- The two shapes of `handleRune` in edit mode with no highlight, on a
decomposed cursor line. -/
theorem handleRune_shape (e : Editor) (A : List Line) (m1 m2 : List Char)
    (B : List Line) (hL : e.lines = A ++ (m1 ++ m2) :: B) (hlenA : A.length = e.cl)
    (hcx : e.cx = m1.length) (hm : e.mode = EDIT_MODE) (hh : e.highlighted = []) :
    handleRune e '\n'
      = setModified { e with lines := A ++ (m1 ++ ['\n']) :: m2 :: B,
                             cl := e.cl + 1, cx := 0 } ∧
    ∀ r : Char, r ≠ '\n' →
      handleRune e r
        = setModified { e with lines := A ++ (m1 ++ r :: m2) :: B,
                               cx := e.cx + 1 } := by
  have hcur : e.lines.getD e.cl [] = m1 ++ m2 := by
    rw [hL, ← hlenA]
    exact getD_append_len ..
  have htake : (e.lines.getD e.cl []).take e.cx = m1 := by
    rw [hcur, hcx, List.take_left]
  have hdrop : (e.lines.getD e.cl []).drop e.cx = m2 := by
    rw [hcur, hcx, List.drop_left]
  have hmode : ¬ (e.mode = SEARCH_MODE) := by rw [hm]; decide
  have hhl : ¬ (e.highlighted ≠ []) := fun hcon => hcon hh
  constructor
  · rw [handleRune, if_neg hmode]
    dsimp only
    rw [if_neg hhl, if_pos rfl, htake, hdrop]
    have hset : e.lines.set e.cl (m1 ++ ['\n']) = A ++ (m1 ++ ['\n']) :: B := by
      rw [hL, ← hlenA]
      exact set_append_len ..
    have hins : (A ++ (m1 ++ ['\n']) :: B).insertIdx (e.cl + 1) m2
        = A ++ (m1 ++ ['\n']) :: m2 :: B := by
      rw [← hlenA]
      have hgr : A ++ (m1 ++ ['\n']) :: B = (A ++ [m1 ++ ['\n']]) ++ B := by simp
      rw [hgr, show A.length + 1 = (A ++ [m1 ++ ['\n']]).length by simp,
        insertIdx_append_len]
      simp
    rw [hset, hins]
  · intro r hr
    rw [handleRune, if_neg hmode]
    dsimp only
    rw [if_neg hhl, if_neg hr, htake, hdrop]
    have hset : e.lines.set e.cl (m1 ++ r :: m2) = A ++ (m1 ++ r :: m2) :: B := by
      rw [hL, ← hlenA]
      exact set_append_len ..
    rw [hset]

/-- The mid-line branch of `deletePrevious` on a decomposed cursor
line: remove the character right before the cursor. -/
theorem deletePrevious_char_decomp (e : Editor) (A : List Line) (m1 : List Char)
    (r : Char) (m2 : List Char) (B : List Line)
    (hL : e.lines = A ++ (m1 ++ r :: m2) :: B) (hlenA : A.length = e.cl)
    (hcx : e.cx = m1.length + 1) (hm2 : m2 ≠ []) :
    deletePrevious e = { e with lines := A ++ (m1 ++ m2) :: B, cx := m1.length } := by
  have hcur : e.lines.getD e.cl [] = m1 ++ r :: m2 := by
    rw [hL, ← hlenA]
    exact getD_append_len ..
  have hm2len : 0 < m2.length := List.length_pos.mpr hm2
  rw [deletePrevious]
  rw [if_neg (by
    rintro ⟨-, hlen1⟩
    rw [hcur] at hlen1
    simp only [List.length_append, List.length_cons] at hlen1
    omega)]
  rw [if_neg (by omega)]
  rw [hcur, hcx]
  have herase : (m1 ++ r :: m2).eraseIdx (m1.length + 1 - 1) = m1 ++ m2 := by
    rw [Nat.add_sub_cancel]
    exact eraseIdx_append_len ..
  rw [herase]
  have hset : e.lines.set e.cl (m1 ++ m2) = A ++ (m1 ++ m2) :: B := by
    rw [hL, ← hlenA]
    exact set_append_len ..
  rw [hset]
  simp

/-- Deleting right after inserting restores the state, except that the
modified flag is set: the algebraic core of the undo laws. -/
theorem ins_del (e : Editor) (r : Char) (hwf : WF e) (hm : e.mode = EDIT_MODE)
    (hh : e.highlighted = []) :
    deletePrevious (handleRune e r) = setModified e := by
  obtain ⟨A, m1, m2, B, hL, hlenA, hcx, hm2, hwl⟩ := WF_decomp e hwf
  have hsh := handleRune_shape e A m1 m2 B hL hlenA hcx hm hh
  by_cases hr : r = '\n'
  · subst hr
    rw [hsh.1]
    rw [deletePrevious_merge_decomp _ A (m1 ++ ['\n']) m2 B rfl
      (by show A.length = e.cl + 1 - 1; omega) (by show 0 < e.cl + 1; omega) rfl]
    show ({ e with
      lines := A ++ ((m1 ++ ['\n']).dropLast ++ m2) :: B,
      cl := e.cl + 1 - 1,
      cx := (m1 ++ ['\n']).length - 1,
      modified := true } : Editor) = setModified e
    rw [List.dropLast_concat, ← hL, setModified]
    congr 1
    simp [hcx]
  · rw [hsh.2 r hr]
    rw [deletePrevious_char_decomp
      (setModified { e with
        lines := A ++ (m1 ++ r :: m2) :: B,
        cx := e.cx + 1 })
      A m1 r m2 B rfl hlenA (by show e.cx + 1 = m1.length + 1; omega) hm2]
    show ({ e with
      lines := A ++ (m1 ++ m2) :: B,
      cx := m1.length,
      modified := true } : Editor) = setModified e
    rw [← hL, ← hcx, setModified]

theorem setModified_of_modified (x : Editor) (hx : x.modified = true) :
    setModified x = x := by
  rw [setModified, ← hx]

/-- Everything `WF` and the frame facts the induction needs are
preserved by one `handleRune` in edit mode without highlight. -/
theorem WF_handleRune (e : Editor) (r : Char) (hwf : WF e) (hm : e.mode = EDIT_MODE)
    (hh : e.highlighted = []) :
    WF (handleRune e r) ∧ (handleRune e r).mode = EDIT_MODE ∧
      (handleRune e r).highlighted = [] ∧ (handleRune e r).modified = true := by
  obtain ⟨A, m1, m2, B, hL, hlenA, hcx, hm2, hwl⟩ := WF_decomp e hwf
  have hsh := handleRune_shape e A m1 m2 B hL hlenA hcx hm hh
  have hmemA : ∀ l ∈ A, WFline l := by
    intro l hl
    exact hwf.2.2 l (by rw [hL]; simp [hl])
  have hmemB : ∀ l ∈ B, WFline l := by
    intro l hl
    exact hwf.2.2 l (by rw [hL]; simp [hl])
  have hsplit := WFline_parts m1 m2 hwl hm2
  by_cases hr : r = '\n'
  · subst hr
    rw [hsh.1]
    refine ⟨⟨?_, ?_, ?_⟩, hm, hh, rfl⟩
    · show e.cl + 1 < (A ++ (m1 ++ ['\n']) :: m2 :: B).length
      have hlen0 : (A ++ (m1 ++ ['\n']) :: m2 :: B).length = A.length + B.length + 2 := by
        simp
        omega
      omega
    · show (0 : Nat) < ((A ++ (m1 ++ ['\n']) :: m2 :: B).getD (e.cl + 1) []).length
      have hgd : (A ++ (m1 ++ ['\n']) :: m2 :: B).getD (e.cl + 1) [] = m2 := by
        rw [← hlenA]
        have hgr : A ++ (m1 ++ ['\n']) :: m2 :: B = (A ++ [m1 ++ ['\n']]) ++ m2 :: B := by
          simp
        rw [hgr, show A.length + 1 = (A ++ [m1 ++ ['\n']]).length by simp]
        exact getD_append_len ..
      rw [hgd]
      exact List.length_pos.mpr hm2
    · intro l hl
      simp only [setModified, List.mem_append, List.mem_cons] at hl
      rcases hl with h | h | h | h
      · exact hmemA l h
      · exact h ▸ WFline_concat_newline m1 hsplit.1
      · exact h ▸ hsplit.2
      · exact hmemB l h
  · rw [hsh.2 r hr]
    refine ⟨⟨?_, ?_, ?_⟩, hm, hh, rfl⟩
    · show e.cl < (A ++ (m1 ++ r :: m2) :: B).length
      have hlen0 : e.lines.length = (A ++ (m1 ++ r :: m2) :: B).length := by
        rw [hL]
        simp
      have h1 := hwf.1
      omega
    · show e.cx + 1 < ((A ++ (m1 ++ r :: m2) :: B).getD e.cl []).length
      have hgd : (A ++ (m1 ++ r :: m2) :: B).getD e.cl [] = m1 ++ r :: m2 := by
        rw [← hlenA]
        exact getD_append_len ..
      rw [hgd]
      simp only [List.length_append, List.length_cons]
      have := List.length_pos.mpr hm2
      omega
    · intro l hl
      simp only [setModified, List.mem_append, List.mem_cons] at hl
      rcases hl with h | h | h
      · exact hmemA l h
      · exact h ▸ WFline_middle m1 m2 r hwl hm2 hr
      · exact hmemB l h

theorem deleteN_succ' (n : Nat) :
    ∀ x : Editor, deleteN (n + 1) x = deletePrevious (deleteN n x) := by
  induction n with
  | zero => intro x; rfl
  | succ m ih =>
    intro x
    show deleteN (m + 1) (deletePrevious x) = deletePrevious (deleteN (m + 1) x)
    rw [ih (deletePrevious x)]
    rfl

/-- Inserting a rune list and then deleting as many characters restores
the state (up to the modified flag), and preserves well-formedness. -/
theorem foldl_insert_law (rs : List Char) :
    ∀ e : Editor, WF e → e.mode = EDIT_MODE → e.highlighted = [] →
      WF (rs.foldl handleRune e) ∧ (rs.foldl handleRune e).mode = EDIT_MODE ∧
        (rs.foldl handleRune e).highlighted = [] ∧
        deleteN rs.length (rs.foldl handleRune e)
          = (if rs.isEmpty then e else setModified e) := by
  induction rs with
  | nil =>
    intro e hwf hm hh
    exact ⟨hwf, hm, hh, rfl⟩
  | cons r t ih =>
    intro e hwf hm hh
    have h' := WF_handleRune e r hwf hm hh
    have iht := ih (handleRune e r) h'.1 h'.2.1 h'.2.2.1
    simp only [List.foldl_cons, List.length_cons]
    refine ⟨iht.1, iht.2.1, iht.2.2.1, ?_⟩
    rw [deleteN_succ', iht.2.2.2]
    by_cases ht : t.isEmpty
    · rw [if_pos ht, if_neg (by simp)]
      exact ins_del e r hwf hm hh
    · rw [if_neg ht, if_neg (by simp)]
      rw [setModified_of_modified _ h'.2.2.2]
      exact ins_del e r hwf hm hh

/-- What "the inverse restores the state" means for a command returning
the mutated editor and its inverse entry: invoking the inverse on the
post-command state succeeds and brings text and cursor back to the
pre-command values. -/
def undoRestores (p : Editor × UndoEntry) (e0 : Editor) : Prop :=
  ∃ e2 b, applyUndo p.2 p.1 = some (e2, b) ∧
    readText e2 = readText e0 ∧ e2.cl = e0.cl ∧ e2.cx = e0.cx

theorem fnHandleRuneSingle_noHl (e : Editor) (r : Char) (hh : e.highlighted = []) :
    fnHandleRuneSingle e r
      = (handleRune e r,
         .insSingle (handleRune e r).cl (handleRune e r).cx none) := by
  rw [fnHandleRuneSingle, if_neg (fun hcon => hcon hh)]
  rfl

theorem fnHandleRuneMulti_noHl (e : Editor) (rs : List Char) (hh : e.highlighted = []) :
    fnHandleRuneMulti e rs
      = (rs.foldl handleRune e,
         .insMulti (rs.foldl handleRune e).cl (rs.foldl handleRune e).cx
           rs.length none) := by
  rw [fnHandleRuneMulti, if_neg (fun hcon => hcon hh)]
  rfl

theorem applyUndo_insSingle_none (e1 : Editor) (ln cx : Nat)
    (h : ln < e1.lines.length) :
    applyUndo (.insSingle ln cx none) e1
      = some (deletePrevious { e1 with cl := ln, cx := cx }, true) := by
  simp only [applyUndo]
  rw [moveCursor_eq e1 ln cx h]
  rfl

theorem applyUndo_insMulti_none (e1 : Editor) (ln cx count : Nat)
    (h : ln < e1.lines.length) :
    applyUndo (.insMulti ln cx count none) e1
      = some (deleteN count { e1 with cl := ln, cx := cx }, true) := by
  simp only [applyUndo]
  rw [moveCursor_eq e1 ln cx h]
  rfl

theorem applyUndo_delNewline (e1 : Editor) (ln cx : Nat)
    (h : ln < e1.lines.length) :
    applyUndo (.delNewline ln cx) e1
      = some (handleRune { e1 with cl := ln, cx := cx } '\n', true) := by
  simp only [applyUndo]
  rw [moveCursor_eq e1 ln cx h]
  rfl

theorem applyUndo_delChar (e1 : Editor) (ln cx : Nat) (r : Char)
    (h : ln < e1.lines.length) :
    applyUndo (.delChar ln cx r) e1
      = some (handleRune { e1 with cl := ln, cx := cx } r, true) := by
  simp only [applyUndo]
  rw [moveCursor_eq e1 ln cx h]
  rfl

theorem applyUndo_swapWithNext (e1 : Editor) (ln cx : Nat)
    (h : ln < e1.lines.length) :
    applyUndo (.swapWithNext ln cx) e1
      = some (swapNext { e1 with cl := ln, cx := cx }, true) := by
  simp only [applyUndo]
  rw [moveCursor_eq e1 ln cx h]
  rfl

theorem applyUndo_swapWithPrev (e1 : Editor) (ln cx : Nat)
    (h : ln < e1.lines.length) :
    applyUndo (.swapWithPrev ln cx) e1
      = some (swapPrev { e1 with cl := ln, cx := cx }, true) := by
  simp only [applyUndo]
  rw [moveCursor_eq e1 ln cx h]
  rfl

theorem law_single (e : Editor) (r : Char) (hwf : WF e) (hm : e.mode = EDIT_MODE)
    (hh : e.highlighted = []) : undoRestores (fnHandleRuneSingle e r) e := by
  have h' := WF_handleRune e r hwf hm hh
  rw [undoRestores, fnHandleRuneSingle_noHl e r hh]
  refine ⟨setModified e, true, ?_, rfl, rfl, rfl⟩
  rw [applyUndo_insSingle_none _ _ _ h'.1.1]
  have heta : ({ handleRune e r with
      cl := (handleRune e r).cl,
      cx := (handleRune e r).cx } : Editor) = handleRune e r := rfl
  rw [heta, ins_del e r hwf hm hh]

theorem law_multi (e : Editor) (rs : List Char) (hwf : WF e)
    (hm : e.mode = EDIT_MODE) (hh : e.highlighted = []) :
    undoRestores (fnHandleRuneMulti e rs) e := by
  have hfold := foldl_insert_law rs e hwf hm hh
  rw [undoRestores, fnHandleRuneMulti_noHl e rs hh]
  refine ⟨if rs.isEmpty then e else setModified e, true, ?_, ?_, ?_, ?_⟩
  · rw [applyUndo_insMulti_none _ _ _ _ hfold.1.1]
    have heta : ({ rs.foldl handleRune e with
        cl := (rs.foldl handleRune e).cl,
        cx := (rs.foldl handleRune e).cx } : Editor) = rs.foldl handleRune e := rfl
    rw [heta, hfold.2.2.2]
  · split
    · rfl
    · rfl
  · split
    · rfl
    · rfl
  · split
    · rfl
    · rfl

theorem WFline_eta (p : Line) (h : WFline p) : p.dropLast ++ ['\n'] = p := by
  obtain ⟨hne, hlast, -⟩ := h
  have h3 : p.getLast hne = '\n' := by
    have h4 := List.getLast?_eq_getLast p hne
    rw [h4] at hlast
    exact Option.some.inj hlast
  rw [← h3]
  exact List.dropLast_append_getLast hne

theorem getD_mem_dropLast (l : List Char) (k : Nat) (h : k + 1 < l.length) :
    l.getD k ' ' ∈ l.dropLast := by
  have h1 : k < l.dropLast.length := by rw [List.length_dropLast]; omega
  have hk : k < l.length := by omega
  have h2 : l.dropLast[k] = l[k] := List.getElem_dropLast l k h1
  have h3 : l.getD k ' ' = l[k] := List.getD_eq_getElem l ' ' hk
  rw [h3, ← h2]
  exact List.getElem_mem h1

theorem set_snd_append (A : List Line) (p c x : Line) (B : List Line) :
    (A ++ p :: c :: B).set (A.length + 1) x = A ++ p :: x :: B := by
  have hgr : A ++ p :: c :: B = (A ++ [p]) ++ c :: B := by simp
  rw [hgr, show A.length + 1 = (A ++ [p]).length by simp, set_append_len]
  simp

theorem getD_snd_append (A : List Line) (p c : Line) (B : List Line) :
    (A ++ p :: c :: B).getD (A.length + 1) [] = c := by
  have hgr : A ++ p :: c :: B = (A ++ [p]) ++ c :: B := by simp
  rw [hgr, show A.length + 1 = (A ++ [p]).length by simp]
  exact getD_append_len ..

/-- The forward swap of `fnSwapUp` on a decomposed pair of adjacent
lines (the cursor is on `c`, the second one). -/
theorem swapPrev_decomp (e : Editor) (A : List Line) (p c : Line) (B : List Line)
    (hL : e.lines = A ++ p :: c :: B) (hlenA : A.length = e.cl - 1) (hcl : 0 < e.cl)
    (hcx : e.cx < c.length) :
    swapPrev e = { e with lines := A ++ c :: p :: B, cl := e.cl - 1 } := by
  have hclA : e.cl = A.length + 1 := by omega
  have hprev : e.lines.getD (e.cl - 1) [] = p := by
    rw [hL, ← hlenA]
    exact getD_append_len ..
  have hcur : e.lines.getD e.cl [] = c := by
    rw [hL, hclA]
    exact getD_snd_append ..
  rw [swapPrev, hprev, hcur]
  have hset1 : e.lines.set e.cl p = A ++ p :: p :: B := by
    rw [hL, hclA]
    exact set_snd_append ..
  have hset2 : (A ++ p :: p :: B).set (e.cl - 1) c = A ++ c :: p :: B := by
    rw [← hlenA]
    exact set_append_len ..
  rw [hset1, hset2, fixPosition]
  have hgd : (A ++ c :: p :: B).getD (e.cl - 1) [] = c := by
    rw [← hlenA]
    exact getD_append_len ..
  show ({ e with
    lines := A ++ c :: p :: B,
    cl := e.cl - 1,
    cx := min e.cx (((A ++ c :: p :: B).getD (e.cl - 1) []).length - 1) } : Editor)
      = { e with lines := A ++ c :: p :: B, cl := e.cl - 1 }
  rw [hgd, Nat.min_eq_left (by omega)]

/-- The forward swap of `fnSwapDown` on a decomposed pair of adjacent
lines (the cursor is on `c`, the first one). -/
theorem swapNext_decomp (e : Editor) (A : List Line) (c n : Line) (B : List Line)
    (hL : e.lines = A ++ c :: n :: B) (hlenA : A.length = e.cl)
    (hcx : e.cx < c.length) :
    swapNext e = { e with lines := A ++ n :: c :: B, cl := e.cl + 1 } := by
  have hcur : e.lines.getD e.cl [] = c := by
    rw [hL, ← hlenA]
    exact getD_append_len ..
  have hnext : e.lines.getD (e.cl + 1) [] = n := by
    rw [hL, ← hlenA]
    exact getD_snd_append ..
  rw [swapNext, hcur, hnext]
  have hset1 : e.lines.set e.cl n = A ++ n :: n :: B := by
    rw [hL, ← hlenA]
    exact set_append_len ..
  have hset2 : (A ++ n :: n :: B).set (e.cl + 1) c = A ++ n :: c :: B := by
    rw [← hlenA]
    exact set_snd_append ..
  rw [hset1, hset2, fixPosition]
  have hgd : (A ++ n :: c :: B).getD (e.cl + 1) [] = c := by
    rw [← hlenA]
    exact getD_snd_append ..
  show ({ e with
    lines := A ++ n :: c :: B,
    cl := e.cl + 1,
    cx := min e.cx (((A ++ n :: c :: B).getD (e.cl + 1) []).length - 1) } : Editor)
      = { e with lines := A ++ n :: c :: B, cl := e.cl + 1 }
  rw [hgd, Nat.min_eq_left (by omega)]

theorem law_deleteSingle (e : Editor) (hwf : WF e) (hm : e.mode = EDIT_MODE)
    (hh : e.highlighted = []) : undoRestores (fnDeleteSinglePrevious e) e := by
  by_cases h0 : e.cl = 0 ∧ e.cx = 0
  · rw [undoRestores, fnDeleteSinglePrevious, if_pos h0]
    exact ⟨e, false, rfl, rfl, rfl, rfl⟩
  · by_cases hx : e.cx = 0
    · -- merge case: the cursor is at offset 0 of a non-first line
      have hcl : 0 < e.cl := by
        rcases Nat.eq_zero_or_pos e.cl with h | h
        · exact absurd ⟨h, hx⟩ h0
        · exact h
      have hcln : e.cl < e.lines.length := hwf.1
      have h1 : e.cl - 1 < e.lines.length := by omega
      have hd2 : e.lines.drop e.cl
          = e.lines.getD e.cl [] :: e.lines.drop (e.cl + 1) := by
        rw [List.drop_eq_getElem_cons hcln, List.getD_eq_getElem _ _ hcln]
      have hL : e.lines
          = e.lines.take (e.cl - 1)
              ++ e.lines.getD (e.cl - 1) []
                :: e.lines.getD e.cl [] :: e.lines.drop (e.cl + 1) := by
        conv_lhs => rw [list_decomp e.lines (e.cl - 1) [] h1]
        rw [Nat.sub_add_cancel hcl, hd2]
      have hlenA : (e.lines.take (e.cl - 1)).length = e.cl - 1 :=
        length_take_of_le (by omega)
      have hdp := deletePrevious_merge_decomp e (e.lines.take (e.cl - 1))
        (e.lines.getD (e.cl - 1) []) (e.lines.getD e.cl [])
        (e.lines.drop (e.cl + 1)) hL hlenA hcl hx
      have hwlp : WFline (e.lines.getD (e.cl - 1) []) := by
        refine hwf.2.2 _ ?_
        rw [List.getD_eq_getElem _ _ h1]
        exact e.lines.getElem_mem h1
      rw [undoRestores, fnDeleteSinglePrevious, if_neg h0, if_pos hx]
      refine ⟨setModified e, true, ?_, rfl, rfl, rfl⟩
      show applyUndo
        (.delNewline (deletePrevious e).cl (deletePrevious e).cx)
        (deletePrevious e) = some (setModified e, true)
      have hlt : (deletePrevious e).cl < (deletePrevious e).lines.length := by
        rw [hdp]
        show e.cl - 1
          < (e.lines.take (e.cl - 1)
              ++ ((e.lines.getD (e.cl - 1) []).dropLast ++ e.lines.getD e.cl [])
                :: e.lines.drop (e.cl + 1)).length
        simp only [List.length_append, List.length_cons]
        omega
      rw [applyUndo_delNewline _ _ _ hlt]
      have heta : ({ deletePrevious e with
          cl := (deletePrevious e).cl,
          cx := (deletePrevious e).cx } : Editor) = deletePrevious e := rfl
      rw [heta]
      have hsh := handleRune_shape (deletePrevious e) (e.lines.take (e.cl - 1))
        ((e.lines.getD (e.cl - 1) []).dropLast) (e.lines.getD e.cl [])
        (e.lines.drop (e.cl + 1))
        (by rw [hdp]) (by rw [hdp, hlenA])
        (by rw [hdp, List.length_dropLast])
        (by rw [hdp]; exact hm) (by rw [hdp]; exact hh)
      rw [hsh.1, WFline_eta _ hwlp, hdp]
      show some (setModified ({ e with
        lines := e.lines.take (e.cl - 1)
            ++ e.lines.getD (e.cl - 1) []
              :: e.lines.getD e.cl [] :: e.lines.drop (e.cl + 1),
        cl := e.cl - 1 + 1,
        cx := 0 } : Editor), true) = some (setModified e, true)
      rw [← hL, Nat.sub_add_cancel hcl, ← hx]
    · -- mid-line case: the cursor has a character to its left
      have hcx1 : e.cx - 1 < (e.lines.getD e.cl []).length := by
        have := hwf.2.1
        omega
      have hcurd : e.lines.getD e.cl []
          = (e.lines.getD e.cl []).take (e.cx - 1)
              ++ (e.lines.getD e.cl []).getD (e.cx - 1) ' '
                :: (e.lines.getD e.cl []).drop e.cx := by
        conv_lhs => rw [list_decomp (e.lines.getD e.cl []) (e.cx - 1) ' ' hcx1]
        rw [Nat.sub_add_cancel (Nat.pos_of_ne_zero hx)]
      have hlinesd : e.lines
          = e.lines.take e.cl
              ++ e.lines.getD e.cl [] :: e.lines.drop (e.cl + 1) :=
        list_decomp e.lines e.cl [] hwf.1
      have hL : e.lines
          = e.lines.take e.cl
              ++ ((e.lines.getD e.cl []).take (e.cx - 1)
                  ++ (e.lines.getD e.cl []).getD (e.cx - 1) ' '
                    :: (e.lines.getD e.cl []).drop e.cx)
                :: e.lines.drop (e.cl + 1) := by
        conv_lhs => rw [hlinesd]
        rw [← hcurd]
      have hlenA : (e.lines.take e.cl).length = e.cl :=
        length_take_of_le (le_of_lt hwf.1)
      have hm1len : ((e.lines.getD e.cl []).take (e.cx - 1)).length = e.cx - 1 :=
        length_take_of_le (by omega)
      have hm2ne : (e.lines.getD e.cl []).drop e.cx ≠ [] := by
        intro hc
        have hlen : ((e.lines.getD e.cl []).drop e.cx).length = 0 := by rw [hc]; rfl
        rw [List.length_drop] at hlen
        have := hwf.2.1
        omega
      have hdp := deletePrevious_char_decomp e (e.lines.take e.cl)
        ((e.lines.getD e.cl []).take (e.cx - 1))
        ((e.lines.getD e.cl []).getD (e.cx - 1) ' ')
        ((e.lines.getD e.cl []).drop e.cx)
        (e.lines.drop (e.cl + 1)) hL hlenA
        (by rw [hm1len]; omega) hm2ne
      have hwlc : WFline (e.lines.getD e.cl []) := by
        refine hwf.2.2 _ ?_
        rw [List.getD_eq_getElem _ _ hwf.1]
        exact e.lines.getElem_mem hwf.1
      have hrr : (e.lines.getD e.cl []).getD (e.cx - 1) ' ' ≠ '\n' := by
        intro hc
        refine hwlc.2.2 ?_
        rw [← hc]
        refine getD_mem_dropLast _ _ ?_
        have := hwf.2.1
        omega
      rw [undoRestores, fnDeleteSinglePrevious, if_neg h0, if_neg hx]
      refine ⟨setModified e, true, ?_, rfl, rfl, rfl⟩
      show applyUndo
        (.delChar (deletePrevious e).cl (deletePrevious e).cx
          ((e.lines.getD e.cl []).getD (e.cx - 1) ' '))
        (deletePrevious e) = some (setModified e, true)
      have hlt : (deletePrevious e).cl < (deletePrevious e).lines.length := by
        rw [hdp]
        show e.cl
          < (e.lines.take e.cl
              ++ ((e.lines.getD e.cl []).take (e.cx - 1)
                  ++ (e.lines.getD e.cl []).drop e.cx)
                :: e.lines.drop (e.cl + 1)).length
        have hlen0 : e.lines.length
            = (e.lines.take e.cl
                ++ e.lines.getD e.cl [] :: e.lines.drop (e.cl + 1)).length := by
          conv_lhs => rw [hlinesd]
        simp only [List.length_append, List.length_cons] at hlen0 ⊢
        have := hwf.1
        omega
      rw [applyUndo_delChar _ _ _ _ hlt]
      have heta : ({ deletePrevious e with
          cl := (deletePrevious e).cl,
          cx := (deletePrevious e).cx } : Editor) = deletePrevious e := rfl
      rw [heta]
      have hsh := handleRune_shape (deletePrevious e) (e.lines.take e.cl)
        ((e.lines.getD e.cl []).take (e.cx - 1))
        ((e.lines.getD e.cl []).drop e.cx)
        (e.lines.drop (e.cl + 1))
        (by rw [hdp]) (by rw [hdp]; exact hlenA)
        (by rw [hdp, hm1len]) (by rw [hdp]; exact hm) (by rw [hdp]; exact hh)
      rw [hsh.2 _ hrr, hdp]
      show some (setModified ({ e with
        lines := e.lines.take e.cl
            ++ ((e.lines.getD e.cl []).take (e.cx - 1)
                ++ (e.lines.getD e.cl []).getD (e.cx - 1) ' '
                  :: (e.lines.getD e.cl []).drop e.cx)
              :: e.lines.drop (e.cl + 1),
        cl := e.cl,
        cx := ((e.lines.getD e.cl []).take (e.cx - 1)).length + 1 } : Editor), true)
        = some (setModified e, true)
      rw [hm1len, ← hL, Nat.sub_add_cancel (Nat.pos_of_ne_zero hx)]

theorem law_swapUp (e : Editor) (hwf : WF e) : undoRestores (fnSwapUp e) e := by
  by_cases hcl : 0 < e.cl
  · have hcln : e.cl < e.lines.length := hwf.1
    have h1 : e.cl - 1 < e.lines.length := by omega
    have hd2 : e.lines.drop e.cl
        = e.lines.getD e.cl [] :: e.lines.drop (e.cl + 1) := by
      rw [List.drop_eq_getElem_cons hcln, List.getD_eq_getElem _ _ hcln]
    have hL : e.lines
        = e.lines.take (e.cl - 1)
            ++ e.lines.getD (e.cl - 1) []
              :: e.lines.getD e.cl [] :: e.lines.drop (e.cl + 1) := by
      conv_lhs => rw [list_decomp e.lines (e.cl - 1) [] h1]
      rw [Nat.sub_add_cancel hcl, hd2]
    have hlenA : (e.lines.take (e.cl - 1)).length = e.cl - 1 :=
      length_take_of_le (by omega)
    have hsw := swapPrev_decomp e (e.lines.take (e.cl - 1))
      (e.lines.getD (e.cl - 1) []) (e.lines.getD e.cl [])
      (e.lines.drop (e.cl + 1)) hL hlenA hcl hwf.2.1
    rw [undoRestores, fnSwapUp, if_pos hcl]
    refine ⟨e, true, ?_, rfl, rfl, rfl⟩
    show applyUndo (.swapWithNext (swapPrev e).cl (swapPrev e).cx) (swapPrev e)
      = some (e, true)
    have hlt : (swapPrev e).cl < (swapPrev e).lines.length := by
      rw [hsw]
      show e.cl - 1
        < (e.lines.take (e.cl - 1)
            ++ e.lines.getD e.cl []
              :: e.lines.getD (e.cl - 1) [] :: e.lines.drop (e.cl + 1)).length
      simp only [List.length_append, List.length_cons]
      omega
    rw [applyUndo_swapWithNext _ _ _ hlt]
    have heta : ({ swapPrev e with
        cl := (swapPrev e).cl,
        cx := (swapPrev e).cx } : Editor) = swapPrev e := rfl
    rw [heta]
    have hsw2 := swapNext_decomp (swapPrev e) (e.lines.take (e.cl - 1))
      (e.lines.getD e.cl []) (e.lines.getD (e.cl - 1) [])
      (e.lines.drop (e.cl + 1))
      (by rw [hsw]) (by rw [hsw]; exact hlenA) (by rw [hsw]; exact hwf.2.1)
    rw [hsw2, hsw]
    show some (({ e with
      lines := e.lines.take (e.cl - 1)
          ++ e.lines.getD (e.cl - 1) []
            :: e.lines.getD e.cl [] :: e.lines.drop (e.cl + 1),
      cl := e.cl - 1 + 1 } : Editor), true) = some (e, true)
    rw [← hL, Nat.sub_add_cancel hcl]
  · rw [undoRestores, fnSwapUp, if_neg hcl]
    exact ⟨e, false, rfl, rfl, rfl, rfl⟩

theorem law_swapDown (e : Editor) (hwf : WF e) : undoRestores (fnSwapDown e) e := by
  by_cases hcl : e.cl + 1 < e.lines.length
  · have hcl2 : e.cl + 1 < e.lines.length := hcl
    have hd2 : e.lines.drop (e.cl + 1)
        = e.lines.getD (e.cl + 1) [] :: e.lines.drop (e.cl + 2) := by
      rw [List.drop_eq_getElem_cons hcl2, List.getD_eq_getElem _ _ hcl2]
    have hL : e.lines
        = e.lines.take e.cl
            ++ e.lines.getD e.cl []
              :: e.lines.getD (e.cl + 1) [] :: e.lines.drop (e.cl + 2) := by
      conv_lhs => rw [list_decomp e.lines e.cl [] hwf.1]
      rw [hd2]
    have hlenA : (e.lines.take e.cl).length = e.cl :=
      length_take_of_le (le_of_lt hwf.1)
    have hsw := swapNext_decomp e (e.lines.take e.cl)
      (e.lines.getD e.cl []) (e.lines.getD (e.cl + 1) [])
      (e.lines.drop (e.cl + 2)) hL hlenA hwf.2.1
    rw [undoRestores, fnSwapDown, if_pos hcl]
    refine ⟨e, true, ?_, rfl, rfl, rfl⟩
    show applyUndo (.swapWithPrev (swapNext e).cl (swapNext e).cx) (swapNext e)
      = some (e, true)
    have hlt : (swapNext e).cl < (swapNext e).lines.length := by
      rw [hsw]
      show e.cl + 1
        < (e.lines.take e.cl
            ++ e.lines.getD (e.cl + 1) []
              :: e.lines.getD e.cl [] :: e.lines.drop (e.cl + 2)).length
      simp only [List.length_append, List.length_cons]
      omega
    rw [applyUndo_swapWithPrev _ _ _ hlt]
    have heta : ({ swapNext e with
        cl := (swapNext e).cl,
        cx := (swapNext e).cx } : Editor) = swapNext e := rfl
    rw [heta]
    have hsw2 := swapPrev_decomp (swapNext e) (e.lines.take e.cl)
      (e.lines.getD (e.cl + 1) []) (e.lines.getD e.cl [])
      (e.lines.drop (e.cl + 2))
      (by rw [hsw]) (by rw [hsw]; exact hlenA)
      (by rw [hsw]; show 0 < e.cl + 1; omega)
      (by rw [hsw]; exact hwf.2.1)
    rw [hsw2, hsw]
    show some (({ e with
      lines := e.lines.take e.cl
          ++ e.lines.getD e.cl []
            :: e.lines.getD (e.cl + 1) [] :: e.lines.drop (e.cl + 2),
      cl := e.cl + 1 - 1 } : Editor), true) = some (e, true)
    rw [← hL, Nat.add_sub_cancel]
  · rw [undoRestores, fnSwapDown, if_neg hcl]
    exact ⟨e, false, rfl, rfl, rfl, rfl⟩

/-- C2 (amended): in edit mode with no active highlight, for every
well-formed editor state, each of the commands single-rune insert,
multi-rune insert (paste), single backspace, swap-up and swap-down,
followed by the inverse action it returns, restores both the
`ReadText()` document text and the cursor's (line-index, offset).
The highlighted-range delete is excluded: its inverse re-types the
captured highlighted runes at the deletion point, which leaves the
cursor after the re-typed range and, when the highlighted offsets are
non-contiguous, does not even restore the document text (see the
counterexample). -/
theorem undo_inverse_restores (e : Editor) (r : Char) (rs : List Char)
    (hwf : WF e) (hm : e.mode = EDIT_MODE) (hh : e.highlighted = []) :
    undoRestores (fnHandleRuneSingle e r) e ∧
    undoRestores (fnHandleRuneMulti e rs) e ∧
    undoRestores (fnDeleteSinglePrevious e) e ∧
    undoRestores (fnSwapUp e) e ∧
    undoRestores (fnSwapDown e) e :=
  ⟨law_single e r hwf hm hh, law_multi e rs hwf hm hh,
   law_deleteSingle e hwf hm hh, law_swapUp e hwf, law_swapDown e hwf⟩

/-- Witness for C2 on the loaded document `"ab\ncd\n"` with cursor
(1,1), inserting the rune z and the rune list "hi". -/
theorem undo_inverse_restores_witness :
    WF ({ newEditor ("ab\ncd\n".toList) with cl := 1, cx := 1 } : Editor) ∧
    ({ newEditor ("ab\ncd\n".toList) with cl := 1, cx := 1 } : Editor).mode
      = EDIT_MODE ∧
    ({ newEditor ("ab\ncd\n".toList) with cl := 1, cx := 1 } : Editor).highlighted
      = [] ∧
    (undoRestores
      (fnHandleRuneSingle { newEditor ("ab\ncd\n".toList) with cl := 1, cx := 1 } 'z')
      { newEditor ("ab\ncd\n".toList) with cl := 1, cx := 1 } ∧
     undoRestores
      (fnHandleRuneMulti { newEditor ("ab\ncd\n".toList) with cl := 1, cx := 1 }
        ("hi".toList))
      { newEditor ("ab\ncd\n".toList) with cl := 1, cx := 1 } ∧
     undoRestores
      (fnDeleteSinglePrevious { newEditor ("ab\ncd\n".toList) with cl := 1, cx := 1 })
      { newEditor ("ab\ncd\n".toList) with cl := 1, cx := 1 } ∧
     undoRestores
      (fnSwapUp { newEditor ("ab\ncd\n".toList) with cl := 1, cx := 1 })
      { newEditor ("ab\ncd\n".toList) with cl := 1, cx := 1 } ∧
     undoRestores
      (fnSwapDown { newEditor ("ab\ncd\n".toList) with cl := 1, cx := 1 })
      { newEditor ("ab\ncd\n".toList) with cl := 1, cx := 1 }) :=
  ⟨by decide, rfl, rfl,
   undo_inverse_restores { newEditor ("ab\ncd\n".toList) with cl := 1, cx := 1 }
     'z' ("hi".toList) (by decide) rfl rfl⟩

/-! ### Search anchor soundness and case-insensitivity (claim C4) -/

/-- The case-normalized character of a scan position. -/
def lowChar (p : Nat × Nat × Char) : Char := p.2.2.toLower

/-- The term occurs case-insensitively at flat position `k` of the
position list `P`. -/
def occursFlatAt (P : List (Nat × Nat × Char)) (term : List Char) (k : Nat) : Prop :=
  ((P.drop k).take term.length).map lowChar = term.map Char.toLower

/-- The anchor `a` marks a genuine case-insensitive occurrence of the
term in the scanned document. -/
def anchorSound (P : List (Nat × Nat × Char)) (term : List Char) (a : Nat × Nat) : Prop :=
  ∃ k c, P[k]? = some (a.1, a.2, c) ∧ occursFlatAt P term k

theorem toLower_eq_newline {c : Char} (h : c.toLower = '\n') : c = '\n' := by
  unfold Char.toLower at h
  dsimp only at h
  split at h
  · exfalso
    next hcond =>
    have hval := congrArg Char.toNat h
    have hvalid : Nat.isValidChar (c.toNat + 32) := Or.inl (by omega)
    have hv2 : (Char.ofNat (c.toNat + 32)).toNat = c.toNat + 32 := by
      rw [Char.ofNat, dif_pos hvalid]
      rfl
    have hnl : ('\n').toNat = 10 := by decide
    omega
  · exact h

theorem dropLast_concat_newline (p : Line) (hne : p ≠ [])
    (hlast : p.getLast? = some '\n') : p.dropLast ++ ['\n'] = p := by
  have h3 : p.getLast hne = '\n' := by
    have h4 := List.getLast?_eq_getLast p hne
    rw [h4] at hlast
    exact Option.some.inj hlast
  rw [← h3]
  exact List.dropLast_append_getLast hne

theorem occursFlatAt_le {P : List (Nat × Nat × Char)} {term : List Char} {k : Nat}
    (h : occursFlatAt P term k) : term.length ≤ (P.drop k).length := by
  have hlen := congrArg List.length h
  simp only [List.length_map, List.length_take] at hlen
  omega

theorem anchorSound_snoc {P : List (Nat × Nat × Char)} {term : List Char}
    {a : Nat × Nat} (p : Nat × Nat × Char) (h : anchorSound P term a) :
    anchorSound (P ++ [p]) term a := by
  obtain ⟨k, c, hk, hocc⟩ := h
  have hklt : k < P.length := by
    by_contra hge
    rw [List.getElem?_eq_none (by omega)] at hk
    cases hk
  refine ⟨k, c, ?_, ?_⟩
  · rw [List.getElem?_append_left hklt]
    exact hk
  · have hle := occursFlatAt_le hocc
    rw [occursFlatAt, List.drop_append_of_le_length (by omega),
      List.take_append_of_le_length hle]
    exact hocc

/-- The committed anchors are all sound, and when a candidate match is
in progress (`idx > 0`) the last anchor marks its start and the last
`idx` scanned characters match the first `idx` term characters. -/
def pendingEvidence (term : List Char) (P : List (Nat × Nat × Char))
    (s : ScanState) : Prop :=
  (∀ a ∈ s.anchors.dropLast, anchorSound P term a) ∧
  ∃ a, s.anchors.getLast? = some a ∧
    (∃ c, P[P.length - s.idx]? = some (a.1, a.2, c)) ∧
    (P.drop (P.length - s.idx)).map lowChar = (term.take s.idx).map Char.toLower

/-- The invariant of the `search()` character scan. -/
def ScanInv (term : List Char) (P : List (Nat × Nat × Char)) (s : ScanState) : Prop :=
  s.idx < term.length ∧
  ((s.idx = 0 ∧ ∀ a ∈ s.anchors, anchorSound P term a) ∨
    (0 < s.idx ∧ pendingEvidence term P s))

theorem scanInv_step (term : List Char) (hterm : term ≠ [])
    (P : List (Nat × Nat × Char)) (s : ScanState) (p : Nat × Nat × Char)
    (hinv : ScanInv term P s) : ScanInv term (P ++ [p]) (scanStep term s p) := by
  obtain ⟨hidx, hbranch⟩ := hinv
  have htermlen : 0 < term.length := List.length_pos.mpr hterm
  rw [scanStep]
  by_cases hmatch : (term.getD s.idx ' ').toLower = p.2.2.toLower
  · rw [if_pos hmatch]
    have hpend : (∀ a ∈ (if s.idx = 0 then s.anchors ++ [(p.1, p.2.1)]
          else s.anchors).dropLast, anchorSound (P ++ [p]) term a) ∧
        ∃ a, (if s.idx = 0 then s.anchors ++ [(p.1, p.2.1)]
            else s.anchors).getLast? = some a ∧
          (∃ c, (P ++ [p])[(P ++ [p]).length - (s.idx + 1)]? = some (a.1, a.2, c)) ∧
          ((P ++ [p]).drop ((P ++ [p]).length - (s.idx + 1))).map lowChar
            = (term.take (s.idx + 1)).map Char.toLower := by
      by_cases h0 : s.idx = 0
      · have hall : ∀ a ∈ s.anchors, anchorSound P term a := by
          rcases hbranch with ⟨-, hall⟩ | ⟨hpos, -⟩
          · exact hall
          · omega
        rw [if_pos h0]
        have hlen1 : (P ++ [p]).length - (s.idx + 1) = P.length := by
          simp [h0]
        refine ⟨?_, (p.1, p.2.1), List.getLast?_concat _, ⟨p.2.2, ?_⟩, ?_⟩
        · rw [List.dropLast_concat]
          intro a ha
          exact anchorSound_snoc p (hall a ha)
        · rw [hlen1]
          exact List.getElem?_concat_length P p
        · rw [hlen1, List.drop_left]
          have htake : term.take (s.idx + 1) = [term[0]] := by
            rw [h0, List.take_succ, List.take_zero,
              List.getElem?_eq_getElem htermlen]
            rfl
          rw [htake]
          have hg : term.getD s.idx ' ' = term[0] := by
            rw [h0]
            exact List.getD_eq_getElem term ' ' htermlen
          rw [hg] at hmatch
          simp only [List.map_cons, List.map_nil, lowChar]
          rw [← hmatch]
      · have hpe : pendingEvidence term P s := by
          rcases hbranch with ⟨hz, -⟩ | ⟨-, hpe⟩
          · exact absurd hz h0
          · exact hpe
        obtain ⟨hfirst, a1, hlast, ⟨c, hposn⟩, hchunk⟩ := hpe
        have hkle : s.idx ≤ P.length := by
          have hlen := congrArg List.length hchunk
          simp only [List.length_map, List.length_drop, List.length_take] at hlen
          omega
        have hpos : 0 < s.idx := Nat.pos_of_ne_zero h0
        rw [if_neg h0]
        have hlen1 : (P ++ [p]).length - (s.idx + 1) = P.length - s.idx := by
          simp only [List.length_append, List.length_cons, List.length_nil]
          omega
        refine ⟨?_, a1, hlast, ⟨c, ?_⟩, ?_⟩
        · intro a ha
          exact anchorSound_snoc p (hfirst a ha)
        · rw [hlen1, List.getElem?_append_left (by omega)]
          exact hposn
        · rw [hlen1, List.drop_append_of_le_length (by omega), List.map_append,
            hchunk, List.take_succ, List.getElem?_eq_getElem hidx]
          have hg : term.getD s.idx ' ' = term[s.idx] :=
            List.getD_eq_getElem term ' ' hidx
          rw [hg] at hmatch
          simp only [List.map_append, List.map_cons, List.map_nil, lowChar,
            Option.toList_some]
          rw [← hmatch]
    dsimp only
    by_cases hcommit : s.idx + 1 = term.length
    · rw [if_pos hcommit]
      refine ⟨htermlen, Or.inl ⟨rfl, ?_⟩⟩
      obtain ⟨hfirst, a1, hlast, ⟨c, hposn⟩, hchunk⟩ := hpend
      have hne : (if s.idx = 0 then s.anchors ++ [(p.1, p.2.1)] else s.anchors)
          ≠ [] := by
        intro hc
        rw [hc] at hlast
        cases hlast
      have hglast : (if s.idx = 0 then s.anchors ++ [(p.1, p.2.1)]
          else s.anchors).getLast hne = a1 := by
        have h5 := List.getLast?_eq_getLast _ hne
        rw [h5] at hlast
        exact Option.some.inj hlast
      have ha1 : anchorSound (P ++ [p]) term a1 := by
        refine ⟨(P ++ [p]).length - (s.idx + 1), c, hposn, ?_⟩
        have hchunklen :
            ((P ++ [p]).drop ((P ++ [p]).length - (s.idx + 1))).length
              = s.idx + 1 := by
          have hlen := congrArg List.length hchunk
          simp only [List.length_map, List.length_drop, List.length_take] at hlen
          simp only [List.length_drop]
          omega
        rw [occursFlatAt, List.take_of_length_le (by omega), hchunk, hcommit,
          List.take_length]
      intro a ha
      rw [← List.dropLast_append_getLast hne, hglast] at ha
      rcases List.mem_append.mp ha with h | h
      · exact hfirst a h
      · have haa : a = a1 := by simpa using h
        rw [haa]
        exact ha1
    · rw [if_neg hcommit]
      refine ⟨?_, Or.inr ⟨?_, hpend.1, hpend.2⟩⟩
      · show s.idx + 1 < term.length
        omega
      · show 0 < s.idx + 1
        omega
  · rw [if_neg hmatch]
    dsimp only
    rw [if_neg (by omega : ¬ ((0 : Nat) = term.length))]
    refine ⟨htermlen, Or.inl ⟨rfl, ?_⟩⟩
    intro a ha
    by_cases h0 : 0 < s.idx
    · rw [if_pos h0] at ha
      rcases hbranch with ⟨hz, -⟩ | ⟨-, hpe⟩
      · omega
      · exact anchorSound_snoc p (hpe.1 a ha)
    · rw [if_neg h0] at ha
      rcases hbranch with ⟨-, hall⟩ | ⟨hpos, -⟩
      · exact anchorSound_snoc p (hall a ha)
      · omega

theorem scanInv_foldl (term : List Char) (hterm : term ≠ []) :
    ∀ (L P : List (Nat × Nat × Char)) (s : ScanState),
      ScanInv term P s → ScanInv term (P ++ L) (L.foldl (scanStep term) s) := by
  intro L
  induction L with
  | nil =>
    intro P s h
    simpa using h
  | cons q t ih =>
    intro P s h
    have h1 := scanInv_step term hterm P s q h
    have h2 := ih (P ++ [q]) _ h1
    rw [List.append_assoc] at h2
    simpa using h2

theorem docCharsFrom_ends_newline :
    ∀ (lines : List Line) (li : Nat),
      (∀ l ∈ lines, l ≠ [] ∧ l.getLast? = some '\n') →
      docCharsFrom li lines = []
        ∨ ∃ a b, (docCharsFrom li lines).getLast? = some (a, b, '\n') := by
  intro lines
  induction lines with
  | nil => exact fun li _ => Or.inl rfl
  | cons l t ih =>
    intro li hl
    right
    rw [docCharsFrom]
    obtain ⟨hne, hlastl⟩ := hl l (by simp)
    rcases ih (li + 1) (fun x hx => hl x (by simp [hx])) with hnil | ⟨a, b, hlast⟩
    · rw [hnil, List.append_nil]
      refine ⟨li, l.dropLast.length, ?_⟩
      conv_lhs => rw [(dropLast_concat_newline l hne hlastl).symm]
      rw [List.enum_append]
      rw [show List.enumFrom l.dropLast.length ['\n']
        = [(l.dropLast.length, '\n')] from rfl]
      rw [List.map_append]
      rw [show (List.map (fun q => (li, q.1, q.2)) [(l.dropLast.length, '\n')])
        = [(li, l.dropLast.length, '\n')] from rfl]
      exact List.getLast?_concat _
    · have hne2 : docCharsFrom (li + 1) t ≠ [] := by
        intro hc
        rw [hc] at hlast
        cases hlast
      rw [List.getLast?_append_of_ne_nil _ hne2]
      exact ⟨a, b, hlast⟩

theorem runScan_anchors_sound (lines : List Line) (term : List Char)
    (hterm : term ≠ []) (hnl : '\n' ∉ term)
    (hlines : ∀ l ∈ lines, l ≠ [] ∧ l.getLast? = some '\n') :
    ∀ a ∈ searchAnchors lines term, anchorSound (docChars lines) term a := by
  have hinv0 : ScanInv term [] ⟨0, [], [], []⟩ :=
    ⟨List.length_pos.mpr hterm, Or.inl ⟨rfl, by intro a ha; cases ha⟩⟩
  have hfin : ScanInv term (docChars lines) (runScan lines term) := by
    have h7 := scanInv_foldl term hterm (docChars lines) [] _ hinv0
    rw [List.nil_append] at h7
    exact h7
  obtain ⟨hidx, hbranch⟩ := hfin
  rcases hbranch with ⟨-, hall⟩ | ⟨hpos, hpend⟩
  · exact hall
  · exfalso
    obtain ⟨-, a1, -, -, hchunk⟩ := hpend
    have hchunklen :
        ((docChars lines).drop
          ((docChars lines).length - (runScan lines term).idx)).length
            = (runScan lines term).idx := by
      have hlen := congrArg List.length hchunk
      simp only [List.length_map, List.length_drop, List.length_take] at hlen
      simp only [List.length_drop]
      omega
    have hchunkne : (docChars lines).drop
        ((docChars lines).length - (runScan lines term).idx) ≠ [] := by
      intro hc
      rw [hc] at hchunklen
      simp at hchunklen
      omega
    have hPlast : ((docChars lines).drop
        ((docChars lines).length - (runScan lines term).idx)).getLast?
          = (docChars lines).getLast? := by
      conv_rhs => rw [← List.take_append_drop
        ((docChars lines).length - (runScan lines term).idx) (docChars lines)]
      rw [List.getLast?_append_of_ne_nil _ hchunkne]
    rcases docCharsFrom_ends_newline lines 0 hlines with hnil | ⟨a, b, hlastP⟩
    · rw [show docChars lines = docCharsFrom 0 lines from rfl, hnil] at hchunkne
      simp at hchunkne
    · have hchl : ((docChars lines).drop
          ((docChars lines).length - (runScan lines term).idx)).getLast?
            = some (a, b, '\n') := by
        rw [hPlast]
        exact hlastP
      have hmapl := congrArg List.getLast? hchunk
      rw [List.getLast?_map, List.getLast?_map, hchl] at hmapl
      have hidx1 : (runScan lines term).idx - 1 < term.length := by omega
      have htakel : (term.take (runScan lines term).idx).getLast?
          = some (term[(runScan lines term).idx - 1]) := by
        rw [List.getLast?_eq_getElem?]
        have hlt : (term.take (runScan lines term).idx).length
            = (runScan lines term).idx := length_take_of_le (by omega)
        rw [hlt, List.getElem?_take_of_lt (by omega),
          List.getElem?_eq_getElem (by omega : (runScan lines term).idx - 1 < term.length)]
      rw [htakel] at hmapl
      simp only [Option.map_some', lowChar] at hmapl
      have hlow : (term[(runScan lines term).idx - 1]).toLower = '\n' := by
        have h6 := Option.some.inj hmapl
        rw [← h6]
        decide
      have hnl2 : term[(runScan lines term).idx - 1] = '\n' :=
        toLower_eq_newline hlow
      exact hnl (hnl2 ▸ List.getElem_mem (by omega))

theorem scanStep_congr (t t' : List Char)
    (h : t.map Char.toLower = t'.map Char.toLower) : scanStep t = scanStep t' := by
  have hlen : t.length = t'.length := by
    have h2 := congrArg List.length h
    simpa using h2
  funext s p
  have hgetD : (t.getD s.idx ' ').toLower = (t'.getD s.idx ' ').toLower := by
    by_cases hi : s.idx < t.length
    · have h2 := congrArg (fun l => l[s.idx]?) h
      simp only [List.getElem?_map] at h2
      rw [List.getElem?_eq_getElem hi,
        List.getElem?_eq_getElem (by omega : s.idx < t'.length)] at h2
      simp only [Option.map_some'] at h2
      rw [List.getD_eq_getElem t ' ' hi,
        List.getD_eq_getElem t' ' ' (by omega)]
      exact Option.some.inj h2
    · rw [List.getD_eq_default t ' ' (by omega),
        List.getD_eq_default t' ' ' (by omega)]
  simp only [scanStep, hgetD, hlen]

theorem searchAnchors_congr (lines : List Line) (t t' : List Char)
    (h : t.map Char.toLower = t'.map Char.toLower) :
    searchAnchors lines t = searchAnchors lines t' := by
  rw [searchAnchors, searchAnchors, runScan, runScan, scanStep_congr t t' h]

/-- C4 (amended): for every document whose lines all end in a newline
and every non-empty newline-free term, `search()` records anchors only
at positions where the term genuinely occurs case-insensitively
(soundness), and terms equal up to case yield identical anchors at
identical positions.  (The "exactly those positions" direction of the
claim is false: occurrences overlapping an abandoned partial match are
missed, see the counterexample.) -/
theorem search_anchor_sound_and_caseInsensitive :
    (∀ (lines : List Line) (term : List Char), term ≠ [] → '\n' ∉ term →
      (∀ l ∈ lines, l ≠ [] ∧ l.getLast? = some '\n') →
      ∀ a ∈ searchAnchors lines term, anchorSound (docChars lines) term a) ∧
    (∀ (lines : List Line) (t t' : List Char),
      t.map Char.toLower = t'.map Char.toLower →
      searchAnchors lines t = searchAnchors lines t') :=
  ⟨runScan_anchors_sound, searchAnchors_congr⟩

/-- Witness for C4: searching "AbC" in the document "xabc\n". -/
theorem search_anchor_sound_witness :
    ("AbC".toList ≠ [] ∧ '\n' ∉ "AbC".toList ∧
      (∀ l ∈ [("xabc\n".toList)], l ≠ [] ∧ l.getLast? = some '\n')) ∧
    anchorSound (docChars [("xabc\n".toList)]) ("AbC".toList) (0, 1) ∧
    searchAnchors [("xabc\n".toList)] ("AbC".toList)
      = searchAnchors [("xabc\n".toList)] ("abc".toList) := by
  refine ⟨⟨by decide, by decide, by decide⟩, ?_, ?_⟩
  · exact search_anchor_sound_and_caseInsensitive.1 _ _ (by decide) (by decide)
      (by decide) (0, 1) (by decide)
  · exact search_anchor_sound_and_caseInsensitive.2 _ _ _ (by decide)

/-! ### Concrete states used by the scenario theorems -/

/-- The C3 key sequence: load `"\nab\n"`, press Down, Shift+Cmd+Down
(highlighting all of line 1), Backspace (highlighted delete), and
Backspace again (merge into the head line). -/
def deleteSequenceState : Option Editor :=
  (update (newEditor ("\nab\n".toList)) (.arrow .down false false false)).bind
    (fun e => (update e (.arrow .down true false true)).bind
      (fun e => (update e .backspace).bind
        (fun e => update e .backspace)))

/-- Backspace request on a freshly loaded empty document. -/
def backspaceOnEmptyState : Option Editor := update (newEditor []) .backspace

/-- Load `"ab\n"`, press Right, then Shift+Left: a reachable state with
the cursor at (0,0) and offset 0 highlighted. -/
def cexHighlightState : Option Editor :=
  (update (newEditor ("ab\n".toList)) (.arrow .right false false false)).bind
    (fun e => update e (.arrow .left true false false))

/-- The state above after Backspace (highlighted delete) and Undo. -/
def cexAfterUndoState : Option Editor :=
  cexHighlightState.bind (fun e => (update e .backspace).bind (fun e => update e .undo))

/-- Load `"abc\n"`, press Shift+Right, Shift+Down (on the last line this
only moves the cursor to the end, highlighting nothing), then
Shift+Left: a reachable state whose highlighted offsets `{0, 2}` on line
0 are non-contiguous. -/
def cexNonContigState : Option Editor :=
  (update (newEditor ("abc\n".toList)) (.arrow .right true false false)).bind
    (fun e => (update e (.arrow .down true false false)).bind
      (fun e => update e (.arrow .left true false false)))

/-- The state above after Backspace (highlighted delete) and Undo. -/
def cexNonContigAfterUndoState : Option Editor :=
  cexNonContigState.bind
    (fun e => (update e .backspace).bind (fun e => update e .undo))

/-- Select-all request on the loaded two-line document `"x\ny\n"`. -/
def selectAllState : Option Editor := update (newEditor ("x\ny\n".toList)) .selectAll

/-- A search-mode editor whose term is empty while `searchIndex` is 5
(reachable: enter search mode and press Down five times). -/
def emptyTermSearchState : Editor :=
  { newEditor ("a\n".toList) with mode := SEARCH_MODE, searchIndex := 5 }

/-! ### Claim theorems: concrete evaluations -/

/-- C1: the round-trip claim fails on the code.  Loading the non-empty
document `"a\nb"`, which does not end in a newline, yields `"a\n"` — the
final partial line is dropped by the unconditional dangling-line removal
of `WriteText` — instead of the claimed `"a\nb\n"`.  The other cases of
the claim (text ending in a newline, empty text, newline-free text)
behave as claimed. -/
theorem writeText_read_roundtrip_failing :
    readText (newEditor ("a\nb".toList)) = "a\n".toList ∧
    "a\n".toList ≠ "a\nb\n".toList ∧
    readText (newEditor ("a\nb\n".toList)) = "a\nb\n".toList ∧
    readText (newEditor []) = "\n".toList ∧
    readText (newEditor ("ab".toList)) = "ab\n".toList := by
  exact ⟨rfl, by decide, rfl, rfl, rfl⟩

/-- C3: the non-empty invariant fails on the code.  From the reachable
state loaded from `"\nab\n"`, the delete sequence (highlighted delete of
all of line 1, then one more delete-before-cursor) leaves a single empty
line whose `ReadText()` is `""`, strictly shorter than `"\n"`. -/
theorem delete_sequence_empties_document :
    deleteSequenceState.map (fun e => (readText e, e.lines.length)) = some ([], 1) ∧
    ([] : List Char).length < ("\n".toList).length := by
  exact ⟨rfl, by decide⟩

/-- C5 counterexample: the claim that the modified flag stays unset is
false — after loading the empty document, one backspace request leaves
the flag set to `true`, because the backspace handler of `Update` calls
`setModified` unconditionally. -/
theorem backspace_empty_doc_modified_counterexample :
    ¬ (backspaceOnEmptyState.map (fun e => e.modified) = some false) := by
  decide

/-- C5 (amended): after loading the empty document, one
delete-before-cursor request leaves the document text `"\n"` and pushes
only a no-op undo entry, but sets the modified flag to `true`. -/
theorem backspace_empty_doc_effect :
    backspaceOnEmptyState.map (fun e => (readText e, e.modified, e.undoStack))
      = some ("\n".toList, true, [.noop]) := by
  exact rfl

/-- C2 counterexample: the highlighted-delete inverse restores neither
component in general.  (a) From the reachable state with `"ab\n"`,
cursor at (0,0) and offset (0,0) highlighted, Backspace then Undo
restores the text but puts the cursor at (0,1), not at its pre-command
position (0,0).  (b) From the reachable state with `"abc\n"` and the
non-contiguous highlighted offsets `{0, 2}` (Shift+Right, Shift+Down,
Shift+Left), Backspace deletes the two characters before the cursor
(`'c'` then `'b'`) but Undo re-types the captured highlighted runes
`['a','c']`, yielding `"aac\n"` — even the document text is not
restored. -/
theorem undo_highlightedDelete_counterexample :
    (cexHighlightState.map (fun e => (readText e, e.cl, e.cx))
        = some ("ab\n".toList, 0, 0) ∧
      cexAfterUndoState.map (fun e => (readText e, e.cl, e.cx))
        = some ("ab\n".toList, 0, 1) ∧
      (1 : Nat) ≠ 0) ∧
    (cexNonContigState.map (fun e => (readText e, e.highlighted))
        = some ("abc\n".toList, [(0, 0), (0, 2)]) ∧
      cexNonContigAfterUndoState.map (fun e => readText e)
        = some ("aac\n".toList) ∧
      "aac\n".toList ≠ "abc\n".toList) := by
  exact ⟨⟨rfl, rfl, by decide⟩, ⟨rfl, rfl, by decide⟩⟩

/-- C4 counterexample: searching `"ab"` in the document `"aab\n"`
records no anchor at all, although the term occurs case-insensitively at
(0,1) — the occurrence overlaps the partial match abandoned at that very
character, and the scan never re-examines the mismatching character. -/
theorem search_misses_overlapping_occurrence :
    searchAnchors ["aab\n".toList] ("ab".toList) = [] ∧
    (docChars ["aab\n".toList]).get? 1 = some (0, 1, 'a') ∧
    (((docChars ["aab\n".toList]).drop 1).take ("ab".toList).length).map
        (fun p => p.2.2.toLower)
      = ("ab".toList).map Char.toLower := by
  exact ⟨rfl, rfl, rfl⟩

/-- C6 counterexample: `MoveCursor` with a row one past the last line of
a one-line document takes the `log.Fatalf` path (modelled `none`), so it
does not place the cursor on the last line. -/
theorem moveCursor_row_past_end_fatal :
    moveCursor (newEditor ("a\n".toList)) 1 0 = none := by
  exact rfl

/-- C7 counterexample: when `search()` runs with no matches because the
term is empty, it returns before the reset, leaving `searchIndex` at 5
instead of resetting it to 0. -/
theorem search_empty_term_keeps_searchIndex :
    (search emptyTermSearchState).searchIndex = 5 ∧
    (search emptyTermSearchState).searchHighlights = [] ∧
    (5 : Int) ≠ 0 := by
  exact ⟨rfl, rfl, by decide⟩

/-- C9: highlighting every offset of both lines of `"x\ny\n"` (via the
select-all request), the captured highlighted runes are exactly
`['x','\n','y','\n']` in document order, and `fnDeleteHighlighted`
leaves the document text exactly `"\n"`. -/
theorem selectAll_deleteHighlighted_scenario :
    selectAllState.map (fun e => e.highlighted)
      = some [(0, 0), (0, 1), (1, 0), (1, 1)] ∧
    selectAllState.map (fun e => getHighlightedRunes e) = some ("x\ny\n".toList) ∧
    selectAllState.map (fun e => readText (fnDeleteHighlighted e).1)
      = some ("\n".toList) := by
  exact ⟨rfl, rfl, rfl⟩

end Noter
